import Mathlib

/-!
Verification of the file-collection and rendering engine of
`go_project_context_maker` (a Go utility that renders directory trees and
file dumps into Markdown documents).

Go strings are modelled as `List Char` (`Str`). The Unix path convention
(`filepath.Separator = '/'`) is modelled throughout, matching the
normalisation the program itself performs (`filepath.ToSlash`).
The filesystem (`os.Stat`, `filepath.WalkDir`, `filepath.Glob`,
`os.ReadFile`, `os.WriteFile`, `os.MkdirAll`) is an abstract environment
`Env`; the pure path algebra (`Clean`, `Join`, `Base`, `Dir`, `Ext`,
`Rel`, `Match`) is ported from Go's `path/filepath`.
-/

namespace GPCM

/-- Go strings, modelled as lists of characters. -/
abbrev Str := List Char

/-- The path separator (`filepath.Separator` on Unix). -/
def sep : Char := '/'

/-- Whitespace recognised by `strings.TrimSpace` (ASCII part). -/
def isSpace (c : Char) : Bool :=
  c = ' ' || c = '\t' || c = '\n' || c = '\x0b' || c = '\x0c' || c = '\r'

/-- Port of `strings.TrimSpace`. -/
def trim (s : Str) : Str :=
  ((s.dropWhile isSpace).reverse.dropWhile isSpace).reverse

/-- Port of `strings.ToLower` (ASCII letters). -/
def toLower (s : Str) : Str :=
  s.map (fun c => if 'A' ≤ c ∧ c ≤ 'Z' then Char.ofNat (c.toNat + 32) else c)

/-- Helper for `splitOnChar`: accumulates the current field (reversed). -/
def splitOnCharAux (c : Char) : Str → Str → List Str
  | [], acc => [acc.reverse]
  | x :: rest, acc =>
    if x = c then acc.reverse :: splitOnCharAux c rest []
    else splitOnCharAux c rest (x :: acc)

/-- Port of `strings.Split` with a one-character separator. -/
def splitOnChar (c : Char) (s : Str) : List Str :=
  splitOnCharAux c s []

/-- Port of `strings.Count` with a one-character substring. -/
def countChar (c : Char) (s : Str) : Nat :=
  (s.filter (fun x => x = c)).length

/-- Port of `filepath.IsAbs` (Unix): the path starts with a slash. -/
def isAbs (p : Str) : Bool :=
  p.headD ' ' = sep

/-- Backtracking step of `filepath.Clean`: starting from width `w`,
decrement the output width while it exceeds `dotdot` and the character at
the current width is not a separator (port of the inner loop of the `..`
case). -/
def backWidth (out : Str) (dotdot : Nat) : Nat → Nat
  | 0 => 0
  | w + 1 =>
    if w + 1 > dotdot ∧ out.getD (w + 1) ' ' ≠ sep then backWidth out dotdot w
    else w + 1

/-- Main loop of `filepath.Clean` (port of the Go `for r < n` loop).
`inElem` is true while the loop is copying the bytes of a path element
(the Go original uses an inner `for` for this copy; here it is a mode
flag so the recursion stays structural). -/
def cleanCore (rooted : Bool) : Bool → Str → Str → Nat → Str
  | _, [], out, _ => out
  | true, c :: rest, out, dotdot =>
    if c = sep then cleanCore rooted false rest out dotdot
    else cleanCore rooted true rest (out ++ [c]) dotdot
  | false, [c], out, dotdot =>
    if c = sep then out
    else if c = '.' then out
    else
      (let out2 :=
        if (rooted ∧ out.length ≠ 1) ∨ (¬rooted ∧ out.length ≠ 0)
        then out ++ [sep] else out
      out2 ++ [c])
  | false, c :: d :: rest2, out, dotdot =>
    if c = sep then
      cleanCore rooted false (d :: rest2) out dotdot
    else if c = '.' ∧ d = sep then
      cleanCore rooted false (d :: rest2) out dotdot
    else if c = '.' ∧ d = '.' ∧ (rest2.isEmpty ∨ rest2.headD ' ' = sep) then
      (if out.length > dotdot then
        cleanCore rooted false rest2
          (out.take (backWidth out dotdot (out.length - 1))) dotdot
      else if !rooted then
        (let out2 := (if out.length > 0 then out ++ [sep] else out) ++ ['.', '.']
        cleanCore rooted false rest2 out2 out2.length)
      else
        cleanCore rooted false rest2 out dotdot)
    else
      (let out2 :=
        if (rooted ∧ out.length ≠ 1) ∨ (¬rooted ∧ out.length ≠ 0)
        then out ++ [sep] else out
      cleanCore rooted true (d :: rest2) (out2 ++ [c]) dotdot)

/-- Port of `filepath.Clean` (Unix). -/
def clean (p : Str) : Str :=
  if p.isEmpty then ['.']
  else
    let rooted := p.headD ' ' = sep
    let out :=
      if rooted then cleanCore true false p.tail [sep] 1
      else cleanCore false false p [] 0
    if out.isEmpty then ['.'] else out

/-- Port of `filepath.Base` (Unix). -/
def base (p : Str) : Str :=
  if p.isEmpty then ['.']
  else
    let r := p.reverse.dropWhile (fun c => c = sep)
    let e := (r.takeWhile (fun c => c ≠ sep)).reverse
    if e.isEmpty then [sep] else e

/-- Port of `filepath.Dir` (Unix): everything up to the final separator,
cleaned. -/
def dirOf (p : Str) : Str :=
  clean ((p.reverse.dropWhile (fun c => c ≠ sep)).reverse)

/-- Helper for `ext`: scans the reversed path for the last dot before any
separator, accumulating the suffix seen so far. -/
def extRev : Str → Str → Str
  | [], _ => []
  | c :: rest, acc =>
    if c = sep then []
    else if c = '.' then c :: acc
    else extRev rest (c :: acc)

/-- Port of `filepath.Ext`. -/
def ext (p : Str) : Str :=
  extRev p.reverse []

/-- Port of `filepath.Join` for two elements: empty elements are dropped
and the result is cleaned. -/
def join2 (a b : Str) : Str :=
  if a.isEmpty then (if b.isEmpty then [] else clean b)
  else clean (a ++ [sep] ++ b)

/-- Port of `filepath.ToSlash`: replace the OS separator with a forward
slash. -/
def toSlash (p : Str) : Str :=
  p.map (fun c => if c = sep then '/' else c)

/-- Index of the first separator at or after position `i` (port of the
`for bi < bl && base[bi] != Separator` scans in `filepath.Rel`). -/
def findSepFrom (s : Str) (i : Nat) : Nat :=
  i + ((s.drop i).takeWhile (fun c => c ≠ sep)).length

/-- Substring `s[a:b]` as in Go slicing. -/
def slice (s : Str) (a b : Nat) : Str :=
  (s.drop a).take (b - a)

/-- Main loop of `filepath.Rel`: positions `base[b0:bi]` and
`targ[t0:ti]` at the first differing elements. The loop consumes at least
one character of one string per iteration, so the fuel
`base.length + targ.length + 2` supplied by `rel` never runs out. -/
def relLoop (bs ts : Str) : Nat → Nat → Nat → Nat × Nat × Nat × Nat
  | 0, b0, t0 => (b0, b0, t0, t0)
  | fuel + 1, b0, t0 =>
    let bi := findSepFrom bs b0
    let ti := findSepFrom ts t0
    if slice ts t0 ti ≠ slice bs b0 bi then (b0, bi, t0, ti)
    else
      let bi2 := if bi < bs.length then bi + 1 else bi
      let ti2 := if ti < ts.length then ti + 1 else ti
      relLoop bs ts fuel bi2 ti2

/-- Port of `filepath.Rel` (Unix, no volume names). Errors are collapsed
to `Unit` since the caller only propagates them. -/
def rel (basep targp : Str) : Except Unit Str :=
  let bs := clean basep
  let ts := clean targp
  if ts = bs then .ok ['.']
  else
    let bs := if bs = ['.'] then [] else bs
    let baseSlashed := bs.headD ' ' = sep
    let targSlashed := ts.headD ' ' = sep
    if baseSlashed ≠ targSlashed then .error ()
    else
      let q := relLoop bs ts (bs.length + ts.length + 2) 0 0
      let b0 := q.1
      let bi := q.2.1
      let t0 := q.2.2.1
      if slice bs b0 bi = ['.', '.'] then .error ()
      else if b0 ≠ bs.length then
        let seg := countChar sep (slice bs b0 bs.length)
        let head := ['.', '.'] ++ (List.replicate seg (sep :: ['.', '.'])).flatten
        if t0 ≠ ts.length then .ok (head ++ [sep] ++ ts.drop t0)
        else .ok head
      else .ok (ts.drop t0)

/-- Port of `getEsc` from `filepath.Match`: reads a (possibly escaped)
character of a character class. -/
def getEsc (chunk : Str) : Except Unit (Char × Str) :=
  match chunk with
  | [] => .error ()
  | c :: rest =>
    if c = '-' ∨ c = ']' then .error ()
    else
      match (if c = '\\' then rest else c :: rest) with
      | [] => .error ()
      | r :: nchunk => if nchunk.isEmpty then .error () else .ok (r, nchunk)

/-- Range-parsing loop of the `[` case of `matchChunk`. Each iteration
consumes at least one character of the chunk, so the fuel
`chunk.length + 1` supplied by the caller never runs out. -/
def matchRanges (r : Char) : Nat → Str → Bool → Nat → Except Unit (Bool × Str)
  | 0, _, _, _ => .error ()
  | fuel + 1, chunk, mtch, nrange =>
    if ¬chunk.isEmpty ∧ chunk.headD ' ' = ']' ∧ nrange > 0 then
      .ok (mtch, chunk.tail)
    else
      match getEsc chunk with
      | .error _ => .error ()
      | .ok (lo, ch1) =>
        match (if ch1.headD ' ' = '-' then getEsc ch1.tail
               else .ok (lo, ch1) : Except Unit (Char × Str)) with
        | .error _ => .error ()
        | .ok (hi, ch2) =>
          matchRanges r fuel ch2 (mtch ∨ (lo ≤ r ∧ r ≤ hi)) (nrange + 1)

/-- Port of `matchChunk` from `filepath.Match`: matches a chunk (no
stars) against the head of `s`, returning the unmatched remainder of `s`
and whether the chunk matched. The `failed` flag mirrors the Go local of
the same name. Each iteration consumes at least one character of the
chunk, so the fuel `chunk.length + 1` supplied by callers never runs
out. -/
def matchChunk : Nat → Str → Str → Bool → Except Unit (Str × Bool)
  | 0, _, _, _ => .error ()
  | _ + 1, [], s, failed =>
    if failed then .ok ([], false) else .ok (s, true)
  | fuel + 1, c :: ch, s, failed0 =>
    let failed := failed0 || s.isEmpty
    if c = '[' then
      let rs := if !failed then (s.headD ' ', s.tail) else (Char.ofNat 0, s)
      let nch := if ¬ch.isEmpty ∧ ch.headD ' ' = '^' then (true, ch.tail)
                 else (false, ch)
      match matchRanges rs.1 (nch.2.length + 1) nch.2 false 0 with
      | .error _ => .error ()
      | .ok (mtch, ch3) =>
        matchChunk fuel ch3 rs.2 (failed || decide (mtch = nch.1))
    else if c = '?' then
      let fs := if !failed then (decide (s.headD ' ' = sep), s.tail)
                else (failed, s)
      matchChunk fuel ch fs.2 fs.1
    else if c = '\\' then
      match ch with
      | [] => .error ()
      | d :: ch2 =>
        let fs := if !failed then (decide (d ≠ s.headD ' '), s.tail)
                  else (failed, s)
        matchChunk fuel ch2 fs.2 fs.1
    else
      let fs := if !failed then (decide (c ≠ s.headD ' '), s.tail)
                else (failed, s)
      matchChunk fuel ch fs.2 fs.1

/-- Loop of `scanChunk` from `filepath.Match`: splits the pattern after
the leading stars into the next chunk and the remaining pattern,
treating `*` inside `[...]` as literal and `\` as an escape. -/
def scanChunkLoop : Bool → Str → Str → Str × Str
  | inrange, [], acc => (acc.reverse, [])
  | inrange, c :: rest, acc =>
    if c = '\\' then
      match rest with
      | [] => ((c :: acc).reverse, [])
      | d :: rest2 => scanChunkLoop inrange rest2 (d :: c :: acc)
    else if c = '[' then scanChunkLoop true rest (c :: acc)
    else if c = ']' then scanChunkLoop false rest (c :: acc)
    else if c = '*' then
      (if inrange then scanChunkLoop inrange rest (c :: acc)
       else (acc.reverse, c :: rest))
    else scanChunkLoop inrange rest (c :: acc)

/-- Port of `scanChunk` from `filepath.Match`: strips leading stars and
returns (sawStar, chunk, rest). -/
def scanChunk (p : Str) : Bool × Str × Str :=
  let p2 := p.dropWhile (fun c => c = '*')
  let star := p2.length ≠ p.length
  let cr := scanChunkLoop false p2 []
  (star, cr.1, cr.2)

/-- Star-backtracking loop of `filepath.Match`: try matching the chunk
at each later position of the name, not skipping over a separator.
Returns the new remainder of the name on success. -/
def starLoop (chunk pRest : Str) : Str → Except Unit (Option Str)
  | [] => .ok none
  | c :: restN =>
    if c = sep then .ok none
    else
      match matchChunk (chunk.length + 1) chunk restN false with
      | .error _ => .error ()
      | .ok (t, true) =>
        if pRest.isEmpty ∧ ¬t.isEmpty then starLoop chunk pRest restN
        else .ok (some t)
      | .ok (_, false) => starLoop chunk pRest restN

/-- Final syntactic-validity scan of `filepath.Match`: before returning
a no-match result, check the rest of the pattern for bad syntax. The
remaining pattern shrinks at every step, so the fuel `p.length + 1`
supplied by the caller never runs out. -/
def checkRest : Nat → Str → Except Unit Unit
  | 0, _ => .error ()
  | _ + 1, [] => .ok ()
  | fuel + 1, p =>
    let scr := scanChunk p
    match matchChunk (scr.2.1.length + 1) scr.2.1 [] false with
    | .error _ => .error ()
    | .ok _ => checkRest fuel scr.2.2

/-- Main loop of `filepath.Match`. Every `continue Pattern` shrinks the
pattern by at least one chunk, so the fuel `pat.length + 1` supplied by
`matchFull` never runs out. -/
def matchPat : Nat → Str → Str → Except Unit Bool
  | 0, _, _ => .error ()
  | _ + 1, [], name => .ok name.isEmpty
  | fuel + 1, pat, name =>
    let scr := scanChunk pat
    let star := scr.1
    let chunk := scr.2.1
    let rest := scr.2.2
    if star ∧ chunk.isEmpty then .ok (¬name.contains sep)
    else
      match matchChunk (chunk.length + 1) chunk name false with
      | .error _ => .error ()
      | .ok (t, ok) =>
        if ok ∧ (t.isEmpty ∨ ¬rest.isEmpty) then matchPat fuel rest t
        else
          match (if star then starLoop chunk rest name
                 else .ok none : Except Unit (Option Str)) with
          | .error _ => .error ()
          | .ok (some t2) => matchPat fuel rest t2
          | .ok none =>
            match checkRest (rest.length + 1) rest with
            | .error _ => .error ()
            | .ok _ => .ok false

/-- Port of `filepath.Match` (pattern, name). -/
def matchFull (pat name : Str) : Except Unit Bool :=
  matchPat (pat.length + 1) pat name

/-- Port of `matchAny` (src/main.go): true if the name matches at least
one pattern; `filepath.Match` errors are treated as non-matches. -/
def matchAny (patterns : List Str) (name : Str) : Bool :=
  patterns.any (fun p =>
    match matchFull p name with
    | .ok true => true
    | _ => false)

/-- Loop of `splitPatterns` (src/main.go): trim each part and keep the
non-empty ones. -/
def splitPatternsGo : List Str → List Str
  | [] => []
  | p :: rest =>
    let p2 := trim p
    if ¬p2.isEmpty then p2 :: splitPatternsGo rest else splitPatternsGo rest

/-- Port of `splitPatterns` (src/main.go): split the comma-separated
pattern string, trim whitespace, drop empties. -/
def splitPatterns (csv : Str) : List Str :=
  splitPatternsGo (splitOnChar ',' csv)

/-- Port of `hasGlob` (src/main.go): minimal check for glob
metacharacters. -/
def hasGlob (p : Str) : Bool :=
  p.any (fun c => c = '*' ∨ c = '?' ∨ c = '[')

/-- Port of `tnode` (src/main.go): a tree node with a name, a map from
child name to child node (modelled as an association list; the map's
iteration order is irrelevant because rendering always re-sorts), and a
flag marking a terminal file entry. -/
inductive Tnode where
  | mk (name : Str) (children : List (Str × Tnode)) (isFile : Bool)

/-- Name of a node. -/
def Tnode.name : Tnode → Str
  | .mk n _ _ => n

/-- Children map of a node. -/
def Tnode.children : Tnode → List (Str × Tnode)
  | .mk _ c _ => c

/-- File flag of a node. -/
def Tnode.isFile : Tnode → Bool
  | .mk _ _ f => f

/-- Port of `newNode` (src/main.go). -/
def newNode (name : Str) : Tnode :=
  .mk name [] false

/-- Lookup in the children map (Go `cur.children[part]`). -/
def findChild : List (Str × Tnode) → Str → Option Tnode
  | [], _ => none
  | (k, v) :: rest, key => if k = key then some v else findChild rest key

/-- Store a value in the children map (Go `cur.children[part] = n`):
replace in place if the key is present, append otherwise. -/
def upsert : List (Str × Tnode) → Str → Tnode → List (Str × Tnode)
  | [], k, v => [(k, v)]
  | (k1, v1) :: rest, k, v =>
    if k1 = k then (k, v) :: rest else (k1, v1) :: upsert rest k v

/-- Mark a node as a file (Go `n.isFile = true`). -/
def setFile : Tnode → Tnode
  | .mk n c _ => .mk n c true

/-- Core of `insertPath` (src/main.go): walk/create nodes along the
chain of parts, marking the final part's node as a file. The Go original
mutates the shared node graph in place; here every step rebuilds the
affected child entry. -/
def insertParts : Tnode → List Str → Tnode
  | t, [] => t
  | .mk n c f, part :: rest =>
    let child :=
      match findChild c part with
      | some v => v
      | none => newNode part
    let child2 := if rest.isEmpty then setFile child else child
    let child3 := insertParts child2 rest
    .mk n (upsert c part child3) f

/-- Port of `splitPath` (src/main.go): clean, then split on the OS
separator. -/
def splitPath (p : Str) : List Str :=
  splitOnChar sep (clean p)

/-- Port of `insertPath` (src/main.go). -/
def insertPath (t : Tnode) (relp : Str) : Tnode :=
  insertParts t (splitPath relp)

/-- Port of `isDir` (src/main.go): a node is a directory if it has
children and is not itself marked as a file. -/
def isDir (n : Tnode) : Bool :=
  decide (n.children.length > 0) && !n.isFile

/-- Port of `sort.Strings`: the key list sorted lexicographically
ascending (byte order in Go, code-point order here). -/
def sortStrs (l : List Str) : List Str :=
  List.insertionSort (fun a b => a ≤ b) l

/-- Port of `sortedKeys` (src/main.go): with `dirsFirst`, all directory
keys (alphabetical) before all file keys (alphabetical). The Go map
iteration order is irrelevant since both groups are sorted. -/
def sortedKeys (m : List (Str × Tnode)) (dirsFirst : Bool) : List Str :=
  if !dirsFirst then sortStrs (m.map Prod.fst)
  else
    let dirs := (m.filter (fun kv => isDir kv.2)).map Prod.fst
    let files := (m.filter (fun kv => !isDir kv.2)).map Prod.fst
    sortStrs dirs ++ sortStrs files

theorem sizeOf_findChild {c : List (Str × Tnode)} {k : Str} {v : Tnode}
    (h : findChild c k = some v) : sizeOf v < sizeOf c := by
  induction c with
  | nil => simp [findChild] at h
  | cons hd tl ih =>
    obtain ⟨k1, v1⟩ := hd
    by_cases hk : k1 = k
    · simp [findChild, hk] at h
      subst h
      simp
      omega
    · simp [findChild, hk] at h
      have := ih h
      simp
      omega

theorem sizeOf_children (n : Tnode) : sizeOf n.children < sizeOf n := by
  cases n with
  | mk nm c f => simp [Tnode.children]; omega

mutual

/-- Port of `renderNode` (src/main.go): emit this node's line (with a
trailing slash for directories) and, for directories, recurse into the
children in `sortedKeys` order. A name missing from the children map is
skipped (unreachable: the names come from the map's own keys). -/
def renderNode (n : Tnode) (pre : Str) (isLast : Bool) : Str :=
  let branch := if isLast then "└── ".data else "├── ".data
  let nextPre := if isLast then pre ++ "    ".data else pre ++ "│   ".data
  if isDir n then
    (pre ++ branch ++ n.name ++ [sep] ++ ['\n']) ++
      renderKids n.children (sortedKeys n.children true) nextPre
  else
    pre ++ branch ++ n.name ++ ['\n']
termination_by (sizeOf n, 0)
decreasing_by
  exact Prod.Lex.left _ _ (sizeOf_children n)

/-- Loop over a node's sorted child names (the `for i, name := range
names` loops of `renderNode` and `renderTree` in src/main.go). -/
def renderKids (c : List (Str × Tnode)) (names : List Str) (pre : Str) :
    Str :=
  match names with
  | [] => []
  | name :: rest =>
    match h : findChild c name with
    | none => renderKids c rest pre
    | some child => renderNode child pre rest.isEmpty ++ renderKids c rest pre
termination_by (sizeOf c, names.length + 1)
decreasing_by
  · exact Prod.Lex.right _ (Nat.lt_succ_self _)
  · exact Prod.Lex.left _ _ (sizeOf_findChild h)
  · exact Prod.Lex.right _ (Nat.lt_succ_self _)

end

/-- Tree construction part of `renderTree` (src/main.go): fold
`insertPath` over the paths starting from a root with an empty name. -/
def buildTree (paths : List Str) : Tnode :=
  paths.foldl insertPath (newNode [])

/-- Port of `renderTree` (src/main.go). -/
def renderTree (paths : List Str) : Str :=
  let root := buildTree paths
  renderKids root.children (sortedKeys root.children true) []

/-- Result of `os.Stat`: not-found error, some other error, or success
with the directory flag of the file info. -/
inductive StatRes where
  | notExist
  | statFail
  | found (isDir : Bool)
deriving DecidableEq, Repr

/-- One entry visited by `filepath.WalkDir`: its path, its base name
(`de.Name()`), and whether it is a directory. -/
structure WalkEntry where
  path : Str
  name : Str
  isDir : Bool
deriving DecidableEq, Repr

/-- Abstract filesystem environment: the results of the OS services the
generator uses. `walk` returns the entries `filepath.WalkDir` visits
from a start point (in visiting order), or an error; `glob` returns the
matches of `filepath.Glob`, or an error; `mkdirAll` and `writeOk` report
success of `os.MkdirAll` and `os.WriteFile`. `cwd` is the working
directory used by `filepath.Abs` for relative roots. -/
structure Env where
  cwd : Str
  stat : Str → StatRes
  walk : Str → Except Unit (List WalkEntry)
  glob : Str → Except Unit (List Str)
  readFile : Str → Except Unit Str
  mkdirAll : Str → Bool
  writeOk : Str → Bool

/-- Structured model of the error values produced by the generator; each
constructor records the path/type information the Go error message
carries. -/
inductive GenError where
  | globErr (pattern : Str)
  | statErr (path : Str)
  | relErr (basep targp : Str)
  | walkFail (start : Str)
  | collectWrap (srcType : Str) (e : GenError)
  | unknownSourceType (srcType : Str)
  | readErr (path : Str)
  | dirNotDir (dir : Str)
  | mkdirErr (dir : Str)
  | writeErr (path : Str)
deriving DecidableEq, Repr

/-- Port of `filepath.Abs`: clean an absolute path, join a relative one
to the working directory (`os.Getwd` is modelled as always
succeeding). -/
def absPath (env : Env) (p : Str) : Str :=
  if isAbs p then clean p else join2 env.cwd p

/-- Port of `expandSourceStarts` (src/main.go): resolve each entry
against the absolute root, expand entries containing glob
metacharacters via `filepath.Glob` (a zero-match pattern is silently
skipped), and pass non-glob entries through cleaned. -/
def expandSourceStarts (env : Env) (rootAbs : Str) :
    List Str → Except GenError (List Str)
  | [] => .ok []
  | d :: rest =>
    let pat := if isAbs d then d else join2 rootAbs d
    if hasGlob pat then
      match env.glob pat with
      | .error _ => .error (.globErr pat)
      | .ok ms =>
        match expandSourceStarts env rootAbs rest with
        | .error e => .error e
        | .ok out => .ok (ms.map clean ++ out)
    else
      match expandSourceStarts env rootAbs rest with
      | .error e => .error e
      | .ok out => .ok (clean pat :: out)

/-- Model of `seen[k] = struct{}{}`: the Go set is modelled as a
duplicate-free list in insertion order (the order is irrelevant, the
collector sorts at the end). -/
def addSeen (seen : List Str) (k : Str) : List Str :=
  if k ∈ seen then seen else seen ++ [k]

/-- Port of the `filepath.WalkDir` callback in `collectFiles`
(src/main.go): skip directories, include each regular file whose name
matches (or when the pattern list is empty) under its slash-normalized
root-relative path; a `filepath.Rel` failure aborts the walk. -/
def walkStep (rootAbs : Str) (patterns : List Str) :
    List WalkEntry → List Str → Except Unit (List Str)
  | [], seen => .ok seen
  | e :: rest, seen =>
    if e.isDir then walkStep rootAbs patterns rest seen
    else if patterns.isEmpty || matchAny patterns e.name then
      match rel rootAbs e.path with
      | .error _ => .error ()
      | .ok r => walkStep rootAbs patterns rest (addSeen seen (toSlash r))
    else walkStep rootAbs patterns rest seen

/-- Port of the per-start-point body of the loop in `collectFiles`
(src/main.go): stat the start point; skip silently when it does not
exist; fail on any other stat error; include a matching regular file;
walk a directory. -/
def statStep (env : Env) (rootAbs : Str) (patterns : List Str)
    (seen : List Str) (start : Str) : Except GenError (List Str) :=
  match env.stat start with
  | .notExist => .ok seen
  | .statFail => .error (.statErr start)
  | .found false =>
    let name := base start
    if patterns.isEmpty || matchAny patterns name then
      match rel rootAbs start with
      | .error _ => .error (.relErr rootAbs start)
      | .ok r => .ok (addSeen seen (toSlash r))
    else .ok seen
  | .found true =>
    match env.walk start with
    | .error _ => .error (.walkFail start)
    | .ok entries =>
      match walkStep rootAbs patterns entries seen with
      | .error _ => .error (.walkFail start)
      | .ok seen2 => .ok seen2

/-- Loop of `collectFiles` (src/main.go) over the expanded start
points, threading the seen-set. -/
def processStarts (env : Env) (rootAbs : Str) (patterns : List Str) :
    List Str → List Str → Except GenError (List Str)
  | [], seen => .ok seen
  | s :: rest, seen =>
    match statStep env rootAbs patterns seen s with
    | .error e => .error e
    | .ok seen2 => processStarts env rootAbs patterns rest seen2

/-- Port of `collectFiles` (src/main.go, glob-aware version): expand the
source paths, process every start point, then return the seen-set as a
sorted list. -/
def collectFiles (env : Env) (root : Str) (dirs : List Str)
    (patternCSV : Str) : Except GenError (List Str) :=
  let rootAbs := absPath env root
  let patterns := splitPatterns patternCSV
  match expandSourceStarts env rootAbs dirs with
  | .error e => .error e
  | .ok starts =>
    match processStarts env rootAbs patterns starts [] with
    | .error e => .error e
    | .ok seen => .ok (sortStrs seen)

/-- Port of `config.Source` (src/internal/config/config.go). -/
structure Source where
  type : Str
  sourcePaths : List Str
  excludePaths : List Str
  filePattern : Str

/-- Port of `config.Document` (src/internal/config/config.go). -/
structure Document where
  description : Str
  outputPath : Str
  sources : List Source

/-- Port of `config.Config` (src/internal/config/config.go). -/
structure Config where
  projectPath : Str
  documents : List Document

/-- Port of `detectLang` (src/main.go). -/
def detectLang (path : Str) : Str :=
  let e := toLower (ext path)
  if e = ".go".data then "go".data
  else if e = ".php".data then "php".data
  else if e = ".twig".data then "twig".data
  else if e = ".js".data then "javascript".data
  else if e = ".ts".data then "typescript".data
  else if e = ".json".data then "json".data
  else if e = ".yaml".data ∨ e = ".yml".data then "yaml".data
  else if e = ".md".data then "md".data
  else []

/-- Model of the `%q` format verb on a string (escaping of special
characters inside the string is not modelled; the generator only feeds
it pattern or type strings for message text). -/
def goQuote (s : Str) : Str :=
  '"' :: s ++ ['"']

/-- Model of the `%v` format verb on a string slice. -/
def goStrSlice (l : List Str) : Str :=
  '[' :: List.intercalate [' '] l ++ [']']

/-- Port of `ensureDir` (src/main.go): nothing to do for an empty or
`.` directory; otherwise `os.MkdirAll`, reporting a path that exists as
a non-directory specially. -/
def ensureDir (env : Env) (dir : Str) : Option GenError :=
  if dir.isEmpty ∨ dir = ".".data then none
  else if env.mkdirAll dir then none
  else
    match env.stat dir with
    | .found false => some (.dirNotDir dir)
    | _ => some (.mkdirErr dir)

/-- Port of the per-file loop of the `"file"` case of `Generate`
(src/main.go): read each file, emit a heading and a fenced code block
tagged with the detected language, padding a missing final newline. -/
def appendFileBlocks (env : Env) (projectRoot : Str) :
    List Str → Str → Except GenError Str
  | [], b => .ok b
  | relp :: rest, b =>
    let abs := join2 projectRoot relp
    match env.readFile abs with
    | .error _ => .error (.readErr relp)
    | .ok data =>
      let b1 := b ++ "### ".data ++ relp ++ "\n\n".data
      let lang := detectLang relp
      let b2 := b1 ++ (if ¬lang.isEmpty then "```".data ++ lang ++ ['\n']
                       else "```\n".data)
      let b3 := b2 ++ data
      let b4 := if data.length > 0 ∧ data.getLast? ≠ some '\n' then b3 ++ ['\n']
                else b3
      let b5 := b4 ++ "```\n\n".data
      appendFileBlocks env projectRoot rest b5

/-- Port of the per-source body of `Generate` (src/main.go): collect the
files (wrapping errors with the source type), then dispatch on the
lower-cased source type: `"tree"` renders the tree in a fenced block,
`"file"` emits per-file blocks, anything else is an unknown source
type. -/
def appendSource (env : Env) (projectRoot : Str) (b : Str) (src : Source) :
    Except GenError Str :=
  match collectFiles env projectRoot src.sourcePaths src.filePattern with
  | .error e => .error (.collectWrap src.type e)
  | .ok files =>
    if toLower src.type = "tree".data then
      (if files.isEmpty then
        .ok (b ++ "```\n(no matches for ".data ++ goQuote src.filePattern ++
          " in ".data ++ goStrSlice src.sourcePaths ++ ")\n```\n\n".data)
      else
        .ok (b ++ "```\n".data ++ renderTree files ++ "\n```\n\n".data))
    else if toLower src.type = "file".data then
      (if files.isEmpty then
        .ok (b ++ "_No files matched ".data ++ goQuote src.filePattern ++
          " under ".data ++ goStrSlice src.sourcePaths ++ "_\n\n".data)
      else appendFileBlocks env projectRoot files b)
    else .error (.unknownSourceType src.type)

/-- Loop of `Generate` (src/main.go) over one document's sources,
accumulating the Markdown buffer. -/
def renderSources (env : Env) (projectRoot : Str) :
    List Source → Str → Except GenError Str
  | [], b => .ok b
  | src :: rest, b =>
    match appendSource env projectRoot b src with
    | .error e => .error e
    | .ok b2 => renderSources env projectRoot rest b2

/-- Rendering of one document in `Generate` (src/main.go): optional
level-1 heading from the description, then all sources in order. -/
def renderDoc (env : Env) (projectRoot : Str) (doc : Document) :
    Except GenError Str :=
  let b0 := if ¬doc.description.isEmpty
            then "# ".data ++ doc.description ++ "\n\n".data else []
  renderSources env projectRoot doc.sources b0

/-- Loop of `Generate` (src/main.go) over the documents: render each,
ensure the output directory, write the file. The performed writes are
returned in order together with the error (if any) that aborted the
run. -/
def generateDocs (env : Env) (projectRoot : Str) :
    List Document → List (Str × Str) → List (Str × Str) × Option GenError
  | [], ws => (ws, none)
  | doc :: rest, ws =>
    match renderDoc env projectRoot doc with
    | .error e => (ws, some e)
    | .ok text =>
      match ensureDir env (dirOf doc.outputPath) with
      | some e => (ws, some e)
      | none =>
        if env.writeOk doc.outputPath then
          generateDocs env projectRoot rest (ws ++ [(doc.outputPath, text)])
        else (ws, some (.writeErr doc.outputPath))

/-- Port of `Generate` (src/main.go): process all documents in
configuration order. -/
def generate (env : Env) (c : Config) (projectRoot : Str) :
    List (Str × Str) × Option GenError :=
  generateDocs env projectRoot c.documents []

/-- The collector exactly as `Generate` (src/main.go) invokes it on a
source: only `sourcePaths` and `filePattern` are consumed; the
`excludePaths` field is never passed to the collection logic. -/
def collectForSource (env : Env) (projectRoot : Str) (src : Source) :
    Except GenError (List Str) :=
  collectFiles env projectRoot src.sourcePaths src.filePattern

/-- Resolution of one source-path entry against the absolute root
(`pat := d; if !filepath.IsAbs(pat) { pat = filepath.Join(rootAbs, d) }`
in src/main.go). -/
def resolveEntry (rootAbs d : Str) : Str :=
  if isAbs d then d else join2 rootAbs d

/-- Specification-side contribution of a single source-path entry,
following §4.2 of the spec (Path Expander): a glob entry contributes
every cleaned match (zero matches contribute nothing), a non-glob entry
contributes its cleaned path unconditionally. Used to state the
refinement theorem for `expandSourceStarts`. -/
def expandOneSpec (env : Env) (rootAbs : Str) (d : Str) : List Str :=
  let pat := resolveEntry rootAbs d
  if hasGlob pat then
    match env.glob pat with
    | .error _ => []
    | .ok ms => ms.map clean
  else [clean pat]

/-- Specification-side processing of one document, following §4.6 of the
spec (Generator): render, ensure the output directory, then write;
returns the performed write or the aborting error. Used to state the
sequential-processing theorem for `generate`. -/
def processDoc (env : Env) (projectRoot : Str) (doc : Document) :
    Except GenError (Str × Str) :=
  match renderDoc env projectRoot doc with
  | .error e => .error e
  | .ok text =>
    match ensureDir env (dirOf doc.outputPath) with
    | some e => .error e
    | none =>
      if env.writeOk doc.outputPath then .ok (doc.outputPath, text)
      else .error (.writeErr doc.outputPath)

/-- The writes a list of documents produces when every one of them
succeeds (`none` as soon as any fails). -/
def docsWrites (env : Env) (projectRoot : Str) :
    List Document → Option (List (Str × Str))
  | [] => some []
  | d :: rest =>
    match processDoc env projectRoot d with
    | .error _ => none
    | .ok w => (docsWrites env projectRoot rest).map (fun l => w :: l)

/-- Keys of a children map. -/
def keys (c : List (Str × Tnode)) : List Str :=
  c.map Prod.fst

/-- Well-formedness of a tree: every children map has duplicate-free
keys (true of every tree the Go code builds, since a map cannot hold a
key twice). -/
inductive WF : Tnode → Prop
  | mk {n : Str} {c : List (Str × Tnode)} {f : Bool} :
      (keys c).Nodup →
      (∀ k v, (k, v) ∈ c → WF v) →
      WF (.mk n c f)

/-- Equivalence of trees up to the order of the children association
lists: same name and file flag, children maps with the same
(duplicate-free) key multiset and pointwise-equivalent values. This is
exactly the indifference of a Go map to its insertion order. -/
inductive Equiv : Tnode → Tnode → Prop
  | mk {n : Str} {f : Bool} {c1 c2 : List (Str × Tnode)} :
      (keys c1).Nodup →
      (keys c2).Nodup →
      (keys c1).Perm (keys c2) →
      (∀ k v1 v2, (k, v1) ∈ c1 → (k, v2) ∈ c2 → Equiv v1 v2) →
      Equiv (.mk n c1 f) (.mk n c2 f)

/-- Navigation to the node at a chain of path segments (lookup-only
counterpart of `insertParts`, used to state properties of the built
tree). -/
def findNode : Tnode → List Str → Option Tnode
  | t, [] => some t
  | t, s :: rest =>
    match findChild t.children s with
    | none => none
    | some c => findNode c rest

/-- Concrete environment used by the witnesses: working directory `/w`
with a directory `src` containing `a.go` and `b/c.go`; globbing always
succeeds with no matches, reads and writes succeed. -/
def envW : Env where
  cwd := "/w".data
  stat := fun p =>
    if p = "/w/src".data then .found true
    else if p = "/w/src/a.go".data then .found false
    else .notExist
  walk := fun p =>
    if p = "/w/src".data then
      .ok [⟨"/w/src".data, "src".data, true⟩,
        ⟨"/w/src/a.go".data, "a.go".data, false⟩,
        ⟨"/w/src/b".data, "b".data, true⟩,
        ⟨"/w/src/b/c.go".data, "c.go".data, false⟩]
    else .error ()
  glob := fun _ => .ok []
  readFile := fun _ => .ok "package x\n".data
  mkdirAll := fun _ => true
  writeOk := fun _ => true

/-- Concrete environment used by the error-path witnesses: stat fails on
`/w/bad`, `/w/dir` is a directory whose walk fails, everything else is
missing. -/
def envW2 : Env where
  cwd := "/w".data
  stat := fun p =>
    if p = "/w/bad".data then .statFail
    else if p = "/w/dir".data then .found true
    else .notExist
  walk := fun _ => .error ()
  glob := fun _ => .ok []
  readFile := fun _ => .error ()
  mkdirAll := fun _ => false
  writeOk := fun _ => false

/-- The walk entries of `/w/src` in `envW`, used by witnesses. -/
def entriesW : List WalkEntry :=
  [⟨"/w/src".data, "src".data, true⟩,
   ⟨"/w/src/a.go".data, "a.go".data, false⟩,
   ⟨"/w/src/b".data, "b".data, true⟩,
   ⟨"/w/src/b/c.go".data, "c.go".data, false⟩]

/-- A trivially succeeding document (no sources), used by witnesses. -/
def docA : Document :=
  ⟨"".data, "a.md".data, []⟩

/-- A document with an unknown source type, used by witnesses. -/
def docBad : Document :=
  ⟨"".data, "b.md".data, [⟨"blob".data, [], [], "".data⟩]⟩

/-! Theorems. -/

theorem addSeen_nodup {seen : List Str} {k : Str} (h : seen.Nodup) :
    (addSeen seen k).Nodup := by
  unfold addSeen
  split
  · exact h
  · rename_i hk
    simp [List.nodup_append, h, hk]

theorem walkStep_nodup {rootAbs : Str} {patterns : List Str} :
    ∀ {entries : List WalkEntry} {seen seen2 : List Str},
      walkStep rootAbs patterns entries seen = .ok seen2 → seen.Nodup →
      seen2.Nodup := by
  intro entries
  induction entries with
  | nil =>
    intro seen seen2 h hn
    simp [walkStep] at h
    exact h ▸ hn
  | cons e rest ih =>
    intro seen seen2 h hn
    rw [walkStep] at h
    split at h
    · exact ih h hn
    · split at h
      · split at h
        · exact absurd h (by simp)
        · exact ih h (addSeen_nodup hn)
      · exact ih h hn

theorem statStep_nodup {env : Env} {rootAbs : Str} {patterns : List Str}
    {seen : List Str} {start : Str} {seen2 : List Str}
    (h : statStep env rootAbs patterns seen start = .ok seen2)
    (hn : seen.Nodup) : seen2.Nodup := by
  rw [statStep] at h
  split at h
  · injection h with h
    exact h ▸ hn
  · exact absurd h (by simp)
  · split at h
    · simp only [] at h
      split at h
      · exact absurd h (by simp)
      · injection h with h
        exact h ▸ hn
    · simp only [] at h
      split at h
      · injection h with h
        exact h ▸ addSeen_nodup hn
      · injection h with h
        exact h ▸ hn
  · split at h
    · exact absurd h (by simp)
    · split at h
      · exact absurd h (by simp)
      · rename_i hws
        injection h with h
        exact h ▸ walkStep_nodup hws hn

theorem processStarts_nodup {env : Env} {rootAbs : Str} {patterns : List Str} :
    ∀ {starts : List Str} {seen seen2 : List Str},
      processStarts env rootAbs patterns starts seen = .ok seen2 →
      seen.Nodup → seen2.Nodup := by
  intro starts
  induction starts with
  | nil =>
    intro seen seen2 h hn
    simp [processStarts] at h
    exact h ▸ hn
  | cons s rest ih =>
    intro seen seen2 h hn
    rw [processStarts] at h
    split at h
    · exact absurd h (by simp)
    · rename_i hs
      exact ih h (statStep_nodup hs hn)

theorem sortStrs_sorted (l : List Str) :
    (sortStrs l).Sorted (· ≤ ·) :=
  List.sorted_insertionSort _ l

theorem sortStrs_perm (l : List Str) : (sortStrs l).Perm l :=
  List.perm_insertionSort _ l

/-- C1: for every root, source-path list and file-pattern string, a
successful `collectFiles` run returns a list of project-relative paths
that is lexicographically sorted ascending and contains no duplicate
path (even when the same file is reached via two different source-path
expansions, the seen-set admits each relative path once). Paths are
slash-normalized by the `toSlash` applied at every insertion. -/
theorem collectFiles_sorted_nodup (env : Env) (root : Str)
    (dirs : List Str) (patternCSV : Str) (out : List Str)
    (h : collectFiles env root dirs patternCSV = .ok out) :
    out.Sorted (· ≤ ·) ∧ out.Nodup := by
  rw [collectFiles] at h
  split at h
  · exact absurd h (by simp)
  · split at h
    · exact absurd h (by simp)
    · rename_i hs
      injection h with h
      subst h
      refine ⟨sortStrs_sorted _, ?_⟩
      exact (sortStrs_perm _).symm.nodup (processStarts_nodup hs List.nodup_nil)

/-- C2: at every level, `renderNode`/`renderTree` lay out a node's
children in the order `sortedKeys children true`, and that order is a
block of directory children followed by a block of file children, each
block sorted alphabetically ascending. -/
theorem sortedKeys_dirs_before_files (m : List (Str × Tnode)) :
    ∃ ds fs, sortedKeys m true = ds ++ fs ∧
      ds.Sorted (· ≤ ·) ∧ fs.Sorted (· ≤ ·) ∧
      (∀ k, k ∈ ds ↔ ∃ v, (k, v) ∈ m ∧ isDir v = true) ∧
      (∀ k, k ∈ fs ↔ ∃ v, (k, v) ∈ m ∧ isDir v = false) := by
  refine ⟨sortStrs ((m.filter (fun kv => isDir kv.2)).map Prod.fst),
         sortStrs ((m.filter (fun kv => !isDir kv.2)).map Prod.fst),
         ?_, sortStrs_sorted _, sortStrs_sorted _, ?_, ?_⟩
  · simp [sortedKeys]
  · intro k
    rw [(sortStrs_perm _).mem_iff]
    simp only [List.mem_map, List.mem_filter]
    constructor
    · rintro ⟨⟨a, b⟩, ⟨hm, hd⟩, rfl⟩
      exact ⟨b, hm, hd⟩
    · rintro ⟨v, hm, hd⟩
      exact ⟨(k, v), ⟨hm, hd⟩, rfl⟩
  · intro k
    rw [(sortStrs_perm _).mem_iff]
    simp only [List.mem_map, List.mem_filter, Bool.not_eq_true']
    constructor
    · rintro ⟨⟨a, b⟩, ⟨hm, hd⟩, rfl⟩
      exact ⟨b, hm, hd⟩
    · rintro ⟨v, hm, hd⟩
      exact ⟨(k, v), ⟨hm, hd⟩, rfl⟩

/-- C8: the File Collector's output is independent of the
`excludePaths` field: two sources identical except for their
`excludePaths` lists collect identically (the field is never consumed). -/
theorem collect_ignores_excludePaths (env : Env) (projectRoot : Str)
    (t : Str) (sp : List Str) (fp : Str) (e1 e2 : List Str) :
    collectForSource env projectRoot ⟨t, sp, e1, fp⟩ =
      collectForSource env projectRoot ⟨t, sp, e2, fp⟩ := rfl

/-- C5: when no entry's glob expansion reports an error, the Path
Expander returns exactly the concatenation, in input-entry order, of
each entry's contribution: relative entries are resolved against the
root; a glob entry contributes its cleaned matches in glob order and is
silently skipped when there are none; a non-glob entry contributes its
cleaned path unconditionally. -/
theorem expandSourceStarts_eq_spec (env : Env) (rootAbs : Str)
    (dirs : List Str)
    (hok : ∀ d ∈ dirs, hasGlob (resolveEntry rootAbs d) →
      ∀ u, env.glob (resolveEntry rootAbs d) ≠ .error u) :
    expandSourceStarts env rootAbs dirs =
      .ok (dirs.flatMap (expandOneSpec env rootAbs)) := by
  induction dirs with
  | nil => simp [expandSourceStarts]
  | cons d rest ih =>
    have hd := hok d (by simp)
    have hrest : ∀ d2 ∈ rest, hasGlob (resolveEntry rootAbs d2) →
        ∀ u, env.glob (resolveEntry rootAbs d2) ≠ .error u :=
      fun d2 h2 => hok d2 (by simp [h2])
    rw [expandSourceStarts]
    simp only [List.flatMap_cons]
    by_cases hg : hasGlob (resolveEntry rootAbs d)
    · have : resolveEntry rootAbs d =
          (if isAbs d then d else join2 rootAbs d) := rfl
      rw [← this, hg]
      simp only [if_pos rfl]
      cases hgl : env.glob (resolveEntry rootAbs d) with
      | error u => exact absurd hgl (hd hg u)
      | ok ms =>
        simp only [hgl, ih hrest, expandOneSpec, hg, if_pos, hgl]
    · have : resolveEntry rootAbs d =
          (if isAbs d then d else join2 rootAbs d) := rfl
      rw [← this]
      simp only [hg, if_neg, Bool.false_eq_true, not_false_iff]
      simp only [ih hrest, expandOneSpec, hg]
      simp

/-- C6: a start point whose stat reports not-found is skipped silently
(no error, no output contribution); a stat failure other than not-found
fails the collection with an error identifying that path; a walk error
fails it with an error identifying the start point. -/
theorem notFound_skipped_other_stat_errors_fail :
    (∀ (env : Env) (rootAbs : Str) (patterns seen : List Str) (s : Str)
       (rest : List Str), env.stat s = .notExist →
       processStarts env rootAbs patterns (s :: rest) seen =
         processStarts env rootAbs patterns rest seen) ∧
    (∀ (env : Env) (rootAbs : Str) (patterns seen : List Str) (s : Str)
       (rest : List Str), env.stat s = .statFail →
       processStarts env rootAbs patterns (s :: rest) seen =
         .error (.statErr s)) ∧
    (∀ (env : Env) (rootAbs : Str) (patterns seen : List Str) (s : Str)
       (rest : List Str) (u : Unit),
       env.stat s = .found true → env.walk s = .error u →
       processStarts env rootAbs patterns (s :: rest) seen =
         .error (.walkFail s)) := by
  refine ⟨?_, ?_, ?_⟩
  · intro env rootAbs patterns seen s rest h
    rw [processStarts, statStep, h]
  · intro env rootAbs patterns seen s rest h
    rw [processStarts, statStep, h]
  · intro env rootAbs patterns seen s rest u h hw
    rw [processStarts, statStep, h, hw]

theorem mem_addSeen (seen : List Str) (k x : Str) :
    x ∈ addSeen seen k ↔ x ∈ seen ∨ x = k := by
  unfold addSeen
  split
  · rename_i hk
    constructor
    · exact Or.inl
    · rintro (h | rfl)
      · exact h
      · exact hk
  · simp

theorem walkStep_mem {rootAbs : Str} {patterns : List Str} :
    ∀ {entries : List WalkEntry} {seen seen2 : List Str},
      walkStep rootAbs patterns entries seen = .ok seen2 →
      ∀ x, x ∈ seen2 ↔ x ∈ seen ∨ ∃ e ∈ entries, e.isDir = false ∧
        (patterns.isEmpty || matchAny patterns e.name) = true ∧
        ∃ r, rel rootAbs e.path = .ok r ∧ x = toSlash r := by
  intro entries
  induction entries with
  | nil =>
    intro seen seen2 h x
    simp [walkStep] at h
    simp [h]
  | cons e rest ih =>
    intro seen seen2 h x
    rw [walkStep] at h
    by_cases hdir : e.isDir = true
    · rw [if_pos hdir] at h
      rw [ih h x]
      constructor
      · rintro (hs | ⟨e2, he2, hp⟩)
        · exact Or.inl hs
        · exact Or.inr ⟨e2, List.mem_cons_of_mem _ he2, hp⟩
      · rintro (hs | ⟨e2, he2, hp⟩)
        · exact Or.inl hs
        · rcases List.mem_cons.mp he2 with rfl | he2
          · exact absurd hdir (by simp [hp.1])
          · exact Or.inr ⟨e2, he2, hp⟩
    · rw [if_neg hdir] at h
      by_cases hcond : (patterns.isEmpty || matchAny patterns e.name) = true
      · rw [if_pos hcond] at h
        cases hr : rel rootAbs e.path with
        | error u =>
          rw [hr] at h
          exact absurd h (by simp)
        | ok r =>
          rw [hr] at h
          rw [ih h x, mem_addSeen]
          constructor
          · rintro ((hs | rfl) | ⟨e2, he2, hp⟩)
            · exact Or.inl hs
            · refine Or.inr ⟨e, List.mem_cons_self _ _, ?_, hcond, r, hr, rfl⟩
              simpa using hdir
            · exact Or.inr ⟨e2, List.mem_cons_of_mem _ he2, hp⟩
          · rintro (hs | ⟨e2, he2, hnd, hc2, r2, hr2, rfl⟩)
            · exact Or.inl (Or.inl hs)
            · rcases List.mem_cons.mp he2 with rfl | he2
              · rw [hr] at hr2
                injection hr2 with hr2
                exact Or.inl (Or.inr (by rw [hr2]))
              · exact Or.inr ⟨e2, he2, hnd, hc2, r2, hr2, rfl⟩
      · rw [if_neg hcond] at h
        rw [ih h x]
        constructor
        · rintro (hs | ⟨e2, he2, hp⟩)
          · exact Or.inl hs
          · exact Or.inr ⟨e2, List.mem_cons_of_mem _ he2, hp⟩
        · rintro (hs | ⟨e2, he2, hnd, hc2, hp⟩)
          · exact Or.inl hs
          · rcases List.mem_cons.mp he2 with rfl | he2
            · exact absurd hc2 hcond
            · exact Or.inr ⟨e2, he2, hnd, hc2, hp⟩

/-- C4: the pattern list is the comma-split of the pattern string with
each entry trimmed and empties discarded; and during a directory walk a
regular file's relative path is included exactly when this pattern list
is empty or the file's base name matches at least one pattern under
shell-style glob syntax (`matchAny` over the `filepath.Match` port). -/
theorem splitPatterns_and_inclusion :
    (∀ csv : Str, splitPatterns csv =
      ((splitOnChar ',' csv).map trim).filter (fun s => ¬s.isEmpty)) ∧
    (∀ (rootAbs : Str) (patterns : List Str) (entries : List WalkEntry)
       (seen seen2 : List Str),
      walkStep rootAbs patterns entries seen = .ok seen2 →
      ∀ x, x ∈ seen2 ↔ x ∈ seen ∨ ∃ e ∈ entries, e.isDir = false ∧
        (patterns.isEmpty || matchAny patterns e.name) = true ∧
        ∃ r, rel rootAbs e.path = .ok r ∧ x = toSlash r) := by
  constructor
  · intro csv
    unfold splitPatterns
    generalize splitOnChar ',' csv = parts
    induction parts with
    | nil => simp [splitPatternsGo]
    | cons p rest ih =>
      rw [splitPatternsGo, List.map_cons, List.filter_cons]
      by_cases hp : (trim p).isEmpty
      · have hnil : trim p = [] := by simpa using hp
        simp [hp, hnil, ih]
      · have hnil : ¬trim p = [] := by simpa using hp
        simp [hp, hnil, ih]
  · intro rootAbs patterns entries seen seen2 h x
    exact walkStep_mem h x

/-- C7: a source whose type (compared case-insensitively) is neither
`"tree"` nor `"file"` makes the whole generation fail with an
unknown-source-type error carrying the offending type value, provided
its collection phase (which runs first) succeeds; nothing is written. -/
theorem unknown_source_type_fails (env : Env) (root pp desc outp t : Str)
    (sp ep : List Str) (fp : Str) (restDocs : List Document)
    (files : List Str)
    (hcollect : collectFiles env root sp fp = .ok files)
    (htree : toLower t ≠ "tree".data) (hfile : toLower t ≠ "file".data) :
    generate env ⟨pp, ⟨desc, outp, [⟨t, sp, ep, fp⟩]⟩ :: restDocs⟩ root =
      ([], some (.unknownSourceType t)) := by
  rw [generate, generateDocs, renderDoc, renderSources, appendSource,
    hcollect]
  simp [htree, hfile]

theorem generateDocs_ok_step {env : Env} {projectRoot : Str}
    {d : Document} {w : Str × Str} (docs : List Document)
    (ws : List (Str × Str)) (h : processDoc env projectRoot d = .ok w) :
    generateDocs env projectRoot (d :: docs) ws =
      generateDocs env projectRoot docs (ws ++ [w]) := by
  rw [processDoc] at h
  cases hrend : renderDoc env projectRoot d with
  | error e2 =>
    rw [hrend] at h
    exact absurd h (by simp)
  | ok text =>
    rw [hrend] at h
    cases hd : ensureDir env (dirOf d.outputPath) with
    | some e2 =>
      rw [hd] at h
      exact absurd h (by simp)
    | none =>
      rw [hd] at h
      dsimp only at h
      by_cases hw : env.writeOk d.outputPath = true
      · rw [if_pos hw] at h
        injection h with h
        rw [generateDocs, hrend, hd]
        dsimp only
        rw [if_pos hw, h]
      · rw [if_neg hw] at h
        exact absurd h (by simp)

theorem generateDocs_error_step {env : Env} {projectRoot : Str}
    {d : Document} {e : GenError} (docs : List Document)
    (ws : List (Str × Str)) (h : processDoc env projectRoot d = .error e) :
    generateDocs env projectRoot (d :: docs) ws = (ws, some e) := by
  rw [processDoc] at h
  cases hrend : renderDoc env projectRoot d with
  | error e2 =>
    rw [hrend] at h
    injection h with h
    rw [generateDocs, hrend]
    dsimp only
    rw [h]
  | ok text =>
    rw [hrend] at h
    cases hd : ensureDir env (dirOf d.outputPath) with
    | some e2 =>
      rw [hd] at h
      injection h with h
      rw [generateDocs, hrend, hd]
      dsimp only
      rw [h]
    | none =>
      rw [hd] at h
      dsimp only at h
      by_cases hw : env.writeOk d.outputPath = true
      · rw [if_pos hw] at h
        exact absurd h (by simp)
      · rw [if_neg hw] at h
        injection h with h
        rw [generateDocs, hrend, hd]
        dsimp only
        rw [if_neg hw, h]

theorem generateDocs_all_ok {env : Env} {projectRoot : Str} :
    ∀ {docs : List Document} {nws : List (Str × Str)}
      (ws : List (Str × Str)),
      docsWrites env projectRoot docs = some nws →
      generateDocs env projectRoot docs ws = (ws ++ nws, none) := by
  intro docs
  induction docs with
  | nil =>
    intro nws ws h
    simp [docsWrites] at h
    simp [generateDocs, h.symm]
  | cons d rest ih =>
    intro nws ws h
    rw [docsWrites] at h
    split at h
    · exact absurd h (by simp)
    · rename_i w hp
      cases hrest : docsWrites env projectRoot rest with
      | none => rw [hrest] at h; exact absurd h (by simp)
      | some nws2 =>
        rw [hrest] at h
        injection h with h
        subst h
        rw [generateDocs_ok_step rest ws hp, ih (ws ++ [w]) hrest]
        simp

theorem generateDocs_prefix_error {env : Env} {root : Str} :
    ∀ {pre : List Document} {nws : List (Str × Str)}
      (ws0 : List (Str × Str)) (d : Document) (post : List Document)
      (e : GenError),
      docsWrites env root pre = some nws →
      processDoc env root d = .error e →
      generateDocs env root (pre ++ d :: post) ws0 = (ws0 ++ nws, some e) := by
  intro pre
  induction pre with
  | nil =>
    intro nws ws0 d post e hpre hd
    simp [docsWrites] at hpre
    subst hpre
    simpa using generateDocs_error_step post ws0 hd
  | cons p rest ih =>
    intro nws ws0 d post e hpre hd
    rw [docsWrites] at hpre
    split at hpre
    · exact absurd hpre (by simp)
    · rename_i w hp
      cases hrest : docsWrites env root rest with
      | none => rw [hrest] at hpre; exact absurd hpre (by simp)
      | some nws2 =>
        rw [hrest] at hpre
        injection hpre with hpre
        subst hpre
        rw [List.cons_append, generateDocs_ok_step _ ws0 hp,
          ih (ws0 ++ [w]) d post e hrest hd]
        simp

/-- C9: `generate` processes documents strictly sequentially in
configuration order and a failing document aborts the run: if every
document of a prefix succeeds (producing its write) and the next
document fails, the run's output is exactly the prefix's writes in
order plus that error — documents after the failure are never processed
(the conclusion does not depend on them) and the prefix's writes are
not rolled back. A fully successful run performs every document's
write in order. -/
theorem generate_sequential_abort :
    (∀ (env : Env) (root pp : Str) (docs : List Document)
       (ws : List (Str × Str)),
       docsWrites env root docs = some ws →
       generate env ⟨pp, docs⟩ root = (ws, none)) ∧
    (∀ (env : Env) (root pp : Str) (pre : List Document) (d : Document)
       (post : List Document) (e : GenError) (ws : List (Str × Str)),
       docsWrites env root pre = some ws →
       processDoc env root d = .error e →
       generate env ⟨pp, pre ++ d :: post⟩ root = (ws, some e)) := by
  constructor
  · intro env root pp docs ws h
    rw [generate]
    simpa using generateDocs_all_ok [] h
  · intro env root pp pre d post e ws hpre hd
    rw [generate]
    simpa using generateDocs_prefix_error [] d post e hpre hd

/-! Association-list lemmas for the children maps. -/

theorem keys_nil : keys ([] : List (Str × Tnode)) = [] := rfl

theorem keys_cons (a : Str) (b : Tnode) (tl : List (Str × Tnode)) :
    keys ((a, b) :: tl) = a :: keys tl := rfl

theorem mem_keys_iff {c : List (Str × Tnode)} {k : Str} :
    k ∈ keys c ↔ ∃ v, (k, v) ∈ c := by
  unfold keys
  constructor
  · intro h
    obtain ⟨⟨a, b⟩, hm, rfl⟩ := List.mem_map.mp h
    exact ⟨b, hm⟩
  · rintro ⟨v, hv⟩
    exact List.mem_map.mpr ⟨(k, v), hv, rfl⟩

theorem keys_nodup_unique {c : List (Str × Tnode)} {k : Str} {v1 v2 : Tnode}
    (hn : (keys c).Nodup) (h1 : (k, v1) ∈ c) (h2 : (k, v2) ∈ c) :
    v1 = v2 := by
  induction c with
  | nil => cases h1
  | cons hd tl ih =>
    obtain ⟨a, b⟩ := hd
    rw [keys_cons, List.nodup_cons] at hn
    rcases List.mem_cons.mp h1 with h1 | h1 <;>
      rcases List.mem_cons.mp h2 with h2 | h2
    · injection h1 with e1 e2
      injection h2 with e3 e4
      rw [e2, e4]
    · injection h1 with e1 e2
      exact absurd (mem_keys_iff.mpr ⟨v2, e1 ▸ h2⟩) hn.1
    · injection h2 with e1 e2
      exact absurd (mem_keys_iff.mpr ⟨v1, e1 ▸ h1⟩) hn.1
    · exact ih hn.2 h1 h2

theorem findChild_mem {c : List (Str × Tnode)} {k : Str} {v : Tnode}
    (h : findChild c k = some v) : (k, v) ∈ c := by
  induction c with
  | nil => simp [findChild] at h
  | cons hd tl ih =>
    obtain ⟨a, b⟩ := hd
    rw [findChild] at h
    split at h
    · rename_i ha
      injection h with h
      exact List.mem_cons.mpr (Or.inl (by rw [ha, h]))
    · exact List.mem_cons.mpr (Or.inr (ih h))

theorem findChild_none_iff {c : List (Str × Tnode)} {k : Str} :
    findChild c k = none ↔ k ∉ keys c := by
  induction c with
  | nil => simp [findChild, keys]
  | cons hd tl ih =>
    obtain ⟨a, b⟩ := hd
    rw [findChild, keys_cons]
    by_cases ha : a = k
    · simp [ha]
    · simp only [if_neg ha, ih, List.mem_cons]
      constructor
      · intro h hk
        rcases hk with hk | hk
        · exact ha hk.symm
        · exact h hk
      · intro h hk
        exact h (Or.inr hk)

theorem findChild_of_mem {c : List (Str × Tnode)} {k : Str} {v : Tnode}
    (hn : (keys c).Nodup) (h : (k, v) ∈ c) : findChild c k = some v := by
  cases hf : findChild c k with
  | none => exact absurd (mem_keys_iff.mpr ⟨v, h⟩) (findChild_none_iff.mp hf)
  | some v2 => rw [keys_nodup_unique hn (findChild_mem hf) h]

theorem findChild_upsert_self (c : List (Str × Tnode)) (k : Str)
    (v : Tnode) : findChild (upsert c k v) k = some v := by
  induction c with
  | nil => simp [upsert, findChild]
  | cons hd tl ih =>
    obtain ⟨a, b⟩ := hd
    rw [upsert]
    split
    · simp [findChild]
    · rename_i ha
      rw [findChild, if_neg ha, ih]

theorem findChild_upsert_other (c : List (Str × Tnode)) (k k2 : Str)
    (v : Tnode) (h : k2 ≠ k) :
    findChild (upsert c k v) k2 = findChild c k2 := by
  induction c with
  | nil =>
    have hne : ¬(k = k2) := fun e => h e.symm
    simp [upsert, findChild, hne]
  | cons hd tl ih =>
    obtain ⟨a, b⟩ := hd
    rw [upsert]
    by_cases ha : a = k
    · rw [if_pos ha]
      subst ha
      have hne : ¬(a = k2) := fun e => h e.symm
      rw [findChild, findChild, if_neg hne, if_neg hne]
    · rw [if_neg ha, findChild, findChild]
      split
      · rfl
      · exact ih

theorem keys_upsert_mem {c : List (Str × Tnode)} {k : Str} (v : Tnode)
    (h : k ∈ keys c) : keys (upsert c k v) = keys c := by
  induction c with
  | nil => cases h
  | cons hd tl ih =>
    obtain ⟨a, b⟩ := hd
    rw [upsert]
    by_cases ha : a = k
    · rw [if_pos ha, keys_cons, keys_cons, ha]
    · rw [if_neg ha, keys_cons, keys_cons]
      have hk : k ∈ keys tl := by
        rw [keys_cons, List.mem_cons] at h
        rcases h with h2 | h2
        · exact absurd h2.symm ha
        · exact h2
      rw [ih hk]

theorem keys_upsert_not_mem {c : List (Str × Tnode)} {k : Str} (v : Tnode)
    (h : k ∉ keys c) : keys (upsert c k v) = keys c ++ [k] := by
  induction c with
  | nil => simp [upsert, keys]
  | cons hd tl ih =>
    obtain ⟨a, b⟩ := hd
    rw [keys_cons, List.mem_cons] at h
    rw [upsert]
    by_cases ha : a = k
    · exact absurd (Or.inl ha.symm) h
    · rw [if_neg ha, keys_cons, keys_cons, ih (fun h2 => h (Or.inr h2)),
        List.cons_append]

theorem keys_upsert_nodup {c : List (Str × Tnode)} {k : Str} (v : Tnode)
    (hn : (keys c).Nodup) : (keys (upsert c k v)).Nodup := by
  by_cases h : k ∈ keys c
  · rw [keys_upsert_mem v h]
    exact hn
  · rw [keys_upsert_not_mem v h]
    simp [List.nodup_append, hn, h]

theorem mem_upsert_iff {c : List (Str × Tnode)} {k : Str} {v : Tnode}
    {k2 : Str} {v2 : Tnode} (hn : (keys c).Nodup) :
    (k2, v2) ∈ upsert c k v ↔
      (k2 = k ∧ v2 = v) ∨ (k2 ≠ k ∧ (k2, v2) ∈ c) := by
  induction c with
  | nil =>
    simp only [upsert, List.mem_singleton, List.not_mem_nil, and_false,
      or_false]
    constructor
    · intro h
      injection h with e1 e2
      exact ⟨e1, e2⟩
    · rintro ⟨rfl, rfl⟩
      rfl
  | cons hd tl ih =>
    obtain ⟨a, b⟩ := hd
    rw [keys_cons, List.nodup_cons] at hn
    rw [upsert]
    split
    · rename_i ha
      subst ha
      constructor
      · intro h
        rcases List.mem_cons.mp h with hc | hc
        · injection hc with e1 e2
          exact Or.inl ⟨e1, e2⟩
        · refine Or.inr ⟨?_, List.mem_cons.mpr (Or.inr hc)⟩
          intro he
          subst he
          exact hn.1 ((mem_keys_iff (c := tl)).mpr ⟨v2, hc⟩)
      · rintro (⟨rfl, rfl⟩ | ⟨hne, hm⟩)
        · exact List.mem_cons.mpr (Or.inl rfl)
        · rcases List.mem_cons.mp hm with h | h
          · injection h with e1 e2
            exact absurd e1 hne
          · exact List.mem_cons.mpr (Or.inr h)
    · rename_i ha
      constructor
      · intro h
        rcases List.mem_cons.mp h with h | h
        · injection h with e1 e2
          subst e1
          subst e2
          exact Or.inr ⟨fun he => ha he, List.mem_cons.mpr (Or.inl rfl)⟩
        · rcases (ih hn.2).mp h with ⟨rfl, rfl⟩ | ⟨hne, hm⟩
          · exact Or.inl ⟨rfl, rfl⟩
          · exact Or.inr ⟨hne, List.mem_cons.mpr (Or.inr hm)⟩
      · rintro (⟨rfl, rfl⟩ | ⟨hne, hm⟩)
        · exact List.mem_cons.mpr (Or.inr ((ih hn.2).mpr (Or.inl ⟨rfl, rfl⟩)))
        · rcases List.mem_cons.mp hm with h | h
          · exact List.mem_cons.mpr (Or.inl h)
          · exact List.mem_cons.mpr
              (Or.inr ((ih hn.2).mpr (Or.inr ⟨hne, h⟩)))

/-! Well-formedness and equivalence lemmas for trees. -/

theorem WF_newNode (s : Str) : WF (newNode s) :=
  .mk (by simp [keys]) (by intro k v h; cases h)

theorem WF_setFile {t : Tnode} (h : WF t) : WF (setFile t) := by
  cases t with
  | mk n c f =>
    cases h with
    | mk hn hc => exact .mk hn hc

theorem WF_insertParts : ∀ (ps : List Str) {t : Tnode}, WF t →
    WF (insertParts t ps) := by
  intro ps
  induction ps with
  | nil =>
    intro t h
    simpa only [insertParts] using h
  | cons part rest ih =>
    intro t h
    cases t with
    | mk n c f =>
      cases h with
      | mk hn hc =>
        have key : ∀ ch, WF ch →
            WF (Tnode.mk n (upsert c part
              (insertParts (if rest.isEmpty then setFile ch else ch) rest))
              f) := by
          intro ch hch
          have hch2 : WF (if rest.isEmpty then setFile ch else ch) := by
            split
            · exact WF_setFile hch
            · exact hch
          refine WF.mk (keys_upsert_nodup _ hn) ?_
          intro k v hv
          rcases (mem_upsert_iff hn).mp hv with ⟨rfl, rfl⟩ | ⟨hne, hm⟩
          · exact ih hch2
          · exact hc k v hm
        rw [insertParts]
        cases hf : findChild c part with
        | none =>
          exact key (newNode part) (WF_newNode part)
        | some v0 =>
          exact key v0 (hc part v0 (findChild_mem hf))

theorem Equiv.refl_of_wf : ∀ {t : Tnode}, WF t → Equiv t t := by
  intro t h
  induction h with
  | mk hn hc ih =>
    refine Equiv.mk hn hn (List.Perm.refl _) ?_
    intro k v1 v2 h1 h2
    have he := keys_nodup_unique hn h1 h2
    subst he
    exact ih k v1 h1

theorem Equiv.symm2 : ∀ {t1 t2 : Tnode}, Equiv t1 t2 → Equiv t2 t1 := by
  intro t1 t2 h
  induction h with
  | mk hn1 hn2 hp hpt ih =>
    exact Equiv.mk hn2 hn1 hp.symm (fun k v2 v1 h2 h1 => ih k v1 v2 h1 h2)

theorem Equiv.trans2 : ∀ {t1 t2 : Tnode}, Equiv t1 t2 →
    ∀ {t3 : Tnode}, Equiv t2 t3 → Equiv t1 t3 := by
  intro t1 t2 h
  induction h with
  | mk hn1 hn2 hp hpt ih =>
    intro t3 h23
    cases h23 with
    | mk hn2b hn3 hp2 hpt2 =>
      refine Equiv.mk hn1 hn3 (hp.trans hp2) ?_
      intro k v1 v3 h1 h3
      have hk2 := hp.subset (mem_keys_iff.mpr ⟨v1, h1⟩)
      obtain ⟨v2, h2⟩ := mem_keys_iff.mp hk2
      exact ih k v1 v2 h1 h2 (hpt2 k v2 v3 h2 h3)

theorem isDir_eq_of_equiv : ∀ {t1 t2 : Tnode}, Equiv t1 t2 →
    isDir t1 = isDir t2 := by
  intro t1 t2 h
  cases h with
  | @mk n f c1 c2 hn1 hn2 hp hpt =>
    have hlen : c1.length = c2.length := by simpa [keys] using hp.length_eq
    simp [isDir, Tnode.children, Tnode.isFile, hlen]

theorem Equiv.setFile_congr : ∀ {t1 t2 : Tnode}, Equiv t1 t2 →
    Equiv (setFile t1) (setFile t2) := by
  intro t1 t2 h
  cases h with
  | mk hn1 hn2 hp hpt => exact Equiv.mk hn1 hn2 hp hpt

theorem Equiv.wf_left : ∀ {t1 t2 : Tnode}, Equiv t1 t2 → WF t1 := by
  intro t1 t2 h
  induction h with
  | @mk n f c1 c2 hn1 hn2 hp hpt ih =>
    refine WF.mk hn1 ?_
    intro k v hv
    have hk2 := hp.subset (mem_keys_iff.mpr ⟨v, hv⟩)
    obtain ⟨v2, h2⟩ := mem_keys_iff.mp hk2
    exact ih k v v2 hv h2

theorem insertParts_congr : ∀ (ps : List Str) {t1 t2 : Tnode},
    Equiv t1 t2 → Equiv (insertParts t1 ps) (insertParts t2 ps) := by
  intro ps
  induction ps with
  | nil =>
    intro t1 t2 h
    simpa only [insertParts] using h
  | cons part rest ih =>
    intro t1 t2 h
    cases h with
    | @mk n f c1 c2 hn1 hn2 hp hpt =>
      rw [insertParts, insertParts]
      have key : ∀ ch1 ch2, Equiv ch1 ch2 →
          Equiv
            (Tnode.mk n (upsert c1 part
              (insertParts (if rest.isEmpty then setFile ch1 else ch1) rest))
              f)
            (Tnode.mk n (upsert c2 part
              (insertParts (if rest.isEmpty then setFile ch2 else ch2) rest))
              f) := by
        intro ch1 ch2 hch
        have hch2 : Equiv (if rest.isEmpty then setFile ch1 else ch1)
            (if rest.isEmpty then setFile ch2 else ch2) := by
          split
          · exact hch.setFile_congr
          · exact hch
        have hx := ih hch2
        refine Equiv.mk (keys_upsert_nodup _ hn1) (keys_upsert_nodup _ hn2)
          ?_ ?_
        · by_cases hm : part ∈ keys c1
          · rw [keys_upsert_mem _ hm,
              keys_upsert_mem _ (hp.subset hm)]
            exact hp
          · rw [keys_upsert_not_mem _ hm,
              keys_upsert_not_mem _ (fun h2 => hm (hp.symm.subset h2))]
            exact hp.append_right _
        · intro k v1 v2 h1 h2
          rcases (mem_upsert_iff hn1).mp h1 with ⟨rfl, rfl⟩ | ⟨hne1, hm1⟩
          · rcases (mem_upsert_iff hn2).mp h2 with ⟨he2, rfl⟩ | ⟨hne2, hm2⟩
            · exact hx
            · exact absurd rfl hne2
          · rcases (mem_upsert_iff hn2).mp h2 with ⟨rfl, rfl⟩ | ⟨hne2, hm2⟩
            · exact absurd rfl hne1
            · exact hpt k v1 v2 hm1 hm2
      cases hf1 : findChild c1 part with
      | none =>
        have hf2 : findChild c2 part = none := by
          rw [findChild_none_iff] at hf1 ⊢
          exact fun h2 => hf1 (hp.symm.subset h2)
        rw [hf2]
        exact key (newNode part) (newNode part)
          (Equiv.refl_of_wf (WF_newNode part))
      | some v1 =>
        have hk2 := hp.subset (mem_keys_iff.mpr ⟨v1, findChild_mem hf1⟩)
        obtain ⟨v2, h2⟩ := mem_keys_iff.mp hk2
        rw [findChild_of_mem hn2 h2]
        exact key v1 v2 (hpt part v1 v2 (findChild_mem hf1) h2)



/-! Commutation of insertions, up to `Equiv`. -/

theorem setFile_setFile (t : Tnode) : setFile (setFile t) = setFile t := by
  cases t
  rfl

theorem setFile_insertParts_comm (ps : List Str) (t : Tnode) :
    insertParts (setFile t) ps = setFile (insertParts t ps) := by
  cases ps with
  | nil => simp only [insertParts]
  | cons part rest =>
    cases t with
    | mk n c f => simp only [insertParts, setFile]

theorem insertParts_setFile_if (b : Bool) (u : Tnode) (ps : List Str) :
    insertParts (if b then setFile u else u) ps =
      if b then setFile (insertParts u ps) else insertParts u ps := by
  cases b
  · simp
  · simp [setFile_insertParts_comm]

theorem markIf_congr {b : Bool} {t1 t2 : Tnode} (h : Equiv t1 t2) :
    Equiv (if b then setFile t1 else t1) (if b then setFile t2 else t2) := by
  cases b
  · simpa using h
  · simpa using h.setFile_congr

theorem upsert_upsert_same (c : List (Str × Tnode)) (k : Str)
    (v w : Tnode) : upsert (upsert c k v) k w = upsert c k w := by
  induction c with
  | nil => simp [upsert]
  | cons hd tl ih =>
    obtain ⟨a, b⟩ := hd
    rw [upsert]
    by_cases ha : a = k
    · rw [if_pos ha, upsert, if_pos rfl, upsert, if_pos ha]
    · rw [if_neg ha, upsert, if_neg ha, upsert, if_neg ha, ih]

theorem keys_upsert_indep (c : List (Str × Tnode)) (k : Str)
    (v w : Tnode) : keys (upsert c k v) = keys (upsert c k w) := by
  by_cases h : k ∈ keys c
  · rw [keys_upsert_mem v h, keys_upsert_mem w h]
  · rw [keys_upsert_not_mem v h, keys_upsert_not_mem w h]

theorem insertParts_cons_eq (n : Str) (c : List (Str × Tnode)) (f : Bool)
    (part : Str) (rest : List Str) :
    insertParts (.mk n c f) (part :: rest) =
      .mk n (upsert c part
        (insertParts
          (if rest.isEmpty then
            setFile ((findChild c part).getD (newNode part))
           else (findChild c part).getD (newNode part)) rest)) f := by
  rw [insertParts]
  cases findChild c part <;> rfl

theorem WF_childOf {c : List (Str × Tnode)} {part : Str}
    (hc : ∀ k v, (k, v) ∈ c → WF v) :
    WF ((findChild c part).getD (newNode part)) := by
  cases hf : findChild c part with
  | none => exact WF_newNode part
  | some v => exact hc part v (findChild_mem hf)

theorem WF_markIf {b : Bool} {t : Tnode} (h : WF t) :
    WF (if b then setFile t else t) := by
  cases b
  · simpa using h
  · simpa using WF_setFile h

theorem keys_upsert2_perm (c : List (Str × Tnode)) (a b : Str)
    (x y : Tnode) (hab : a ≠ b) :
    (keys (upsert (upsert c a x) b y)).Perm
      (keys (upsert (upsert c b y) a x)) := by
  by_cases hA : a ∈ keys c <;> by_cases hB : b ∈ keys c
  · rw [keys_upsert_mem y (by rw [keys_upsert_mem x hA]; exact hB),
      keys_upsert_mem x hA,
      keys_upsert_mem x (by rw [keys_upsert_mem y hB]; exact hA),
      keys_upsert_mem y hB]
  · rw [keys_upsert_not_mem y (by rw [keys_upsert_mem x hA]; exact hB),
      keys_upsert_mem x hA,
      keys_upsert_mem x (by
        rw [keys_upsert_not_mem y hB]
        exact List.mem_append.mpr (Or.inl hA)),
      keys_upsert_not_mem y hB]
  · rw [keys_upsert_mem y (by
        rw [keys_upsert_not_mem x hA]
        exact List.mem_append.mpr (Or.inl hB)),
      keys_upsert_not_mem x hA,
      keys_upsert_not_mem x (by
        rw [keys_upsert_mem y hB]
        exact hA),
      keys_upsert_mem y hB]
  · rw [keys_upsert_not_mem y (by
        rw [keys_upsert_not_mem x hA]
        intro hm
        rcases List.mem_append.mp hm with hm | hm
        · exact hB hm
        · exact hab (List.mem_singleton.mp hm).symm),
      keys_upsert_not_mem x hA,
      keys_upsert_not_mem x (by
        rw [keys_upsert_not_mem y hB]
        intro hm
        rcases List.mem_append.mp hm with hm | hm
        · exact hA hm
        · exact hab (List.mem_singleton.mp hm)),
      keys_upsert_not_mem y hB]
    rw [List.append_assoc, List.append_assoc]
    exact List.Perm.append_left _ (List.Perm.swap _ _ _)

theorem insertParts_swap :
    ∀ (p q : List Str) {t : Tnode}, WF t →
      Equiv (insertParts (insertParts t p) q)
        (insertParts (insertParts t q) p) := by
  intro p
  induction p with
  | nil =>
    intro q t h
    simp only [insertParts]
    exact Equiv.refl_of_wf (WF_insertParts q h)
  | cons a p2 ih =>
    intro q t h
    cases q with
    | nil =>
      simp only [insertParts]
      exact Equiv.refl_of_wf (WF_insertParts (a :: p2) h)
    | cons b q2 =>
      cases t with
      | mk n c f =>
        cases h with
        | mk hn hc =>
          by_cases hab : a = b
          · subst hab
            rw [insertParts_cons_eq n c f a p2]
            rw [insertParts_cons_eq n _ f a q2, findChild_upsert_self]
            rw [insertParts_cons_eq n c f a q2]
            rw [insertParts_cons_eq n _ f a p2, findChild_upsert_self]
            simp only [Option.getD_some]
            rw [upsert_upsert_same, upsert_upsert_same]
            set cha := (findChild c a).getD (newNode a) with hcha
            have hwfa : WF cha := WF_childOf hc
            have hXY := ih q2 hwfa
            have hy : Equiv
                (insertParts
                  (if q2.isEmpty then
                    setFile (insertParts
                      (if p2.isEmpty then setFile cha else cha) p2)
                   else insertParts
                      (if p2.isEmpty then setFile cha else cha) p2) q2)
                (insertParts
                  (if p2.isEmpty then
                    setFile (insertParts
                      (if q2.isEmpty then setFile cha else cha) q2)
                   else insertParts
                      (if q2.isEmpty then setFile cha else cha) q2) p2) := by
              rw [insertParts_setFile_if p2.isEmpty cha p2,
                insertParts_setFile_if q2.isEmpty cha q2,
                insertParts_setFile_if, insertParts_setFile_if,
                insertParts_setFile_if, insertParts_setFile_if]
              cases hp2 : p2.isEmpty <;> cases hq2 : q2.isEmpty <;>
                simp only [Bool.false_eq_true, ite_true, ite_false,
                  if_true, if_false]
              · exact hXY
              · exact hXY.setFile_congr
              · exact hXY.setFile_congr
              · exact hXY.setFile_congr.setFile_congr
            refine Equiv.mk (keys_upsert_nodup _ hn) (keys_upsert_nodup _ hn)
              (by rw [keys_upsert_indep c a _ (insertParts
                (if p2.isEmpty then
                  setFile (insertParts
                    (if q2.isEmpty then setFile cha else cha) q2)
                 else insertParts
                    (if q2.isEmpty then setFile cha else cha) q2) p2)]) ?_
            intro k v1 v2 h1 h2
            rcases (mem_upsert_iff hn).mp h1 with ⟨rfl, rfl⟩ | ⟨hne1, hm1⟩
            · rcases (mem_upsert_iff hn).mp h2 with ⟨he2, rfl⟩ | ⟨hne2, hm2⟩
              · exact hy
              · exact absurd rfl hne2
            · rcases (mem_upsert_iff hn).mp h2 with ⟨rfl, rfl⟩ | ⟨hne2, hm2⟩
              · exact absurd rfl hne1
              · rw [keys_nodup_unique hn hm1 hm2]
                exact Equiv.refl_of_wf (hc k v2 hm2)
          · have hba : ¬b = a := fun e => hab e.symm
            rw [insertParts_cons_eq n c f a p2]
            rw [insertParts_cons_eq n _ f b q2,
              findChild_upsert_other c a b _ hba]
            rw [insertParts_cons_eq n c f b q2]
            rw [insertParts_cons_eq n _ f a p2,
              findChild_upsert_other c b a _ hab]
            set cha := (findChild c a).getD (newNode a) with hcha
            set chb := (findChild c b).getD (newNode b) with hchb
            set x := insertParts (if p2.isEmpty then setFile cha else cha) p2
              with hx
            set y := insertParts (if q2.isEmpty then setFile chb else chb) q2
              with hyy
            have hwfx : WF x := WF_insertParts _ (WF_markIf (WF_childOf hc))
            have hwfy : WF y := WF_insertParts _ (WF_markIf (WF_childOf hc))
            have hnA : (keys (upsert c a x)).Nodup := keys_upsert_nodup _ hn
            have hnB : (keys (upsert c b y)).Nodup := keys_upsert_nodup _ hn
            refine Equiv.mk (keys_upsert_nodup _ hnA) (keys_upsert_nodup _ hnB)
              (keys_upsert2_perm c a b x y hab) ?_
            intro k v1 v2 h1 h2
            rcases (mem_upsert_iff hnA).mp h1 with ⟨rfl, rfl⟩ | ⟨hne1, hm1⟩
            · rcases (mem_upsert_iff hnB).mp h2 with ⟨he2, rfl⟩ | ⟨hne2, hm2⟩
              · exact absurd he2 hba
              · rcases (mem_upsert_iff hn).mp hm2 with ⟨he3, rfl⟩ | ⟨hne3, hm3⟩
                · exact Equiv.refl_of_wf hwfy
                · exact absurd rfl hne3
            · rcases (mem_upsert_iff hn).mp hm1 with ⟨rfl, rfl⟩ | ⟨hne3, hm3⟩
              · rcases (mem_upsert_iff hnB).mp h2 with ⟨he4, rfl⟩ | ⟨hne4, hm4⟩
                · exact Equiv.refl_of_wf hwfx
                · exact absurd rfl hne4
              · rcases (mem_upsert_iff hnB).mp h2 with ⟨rfl, rfl⟩ | ⟨hne4, hm4⟩
                · exact absurd rfl hne3
                · rcases (mem_upsert_iff hn).mp hm4 with ⟨he5, rfl⟩ | ⟨hne5, hm5⟩
                  · exact absurd he5 hne1
                  · rw [keys_nodup_unique hn hm3 hm5]
                    exact Equiv.refl_of_wf (hc k v2 hm5)


/-! Permutation invariance of tree building and rendering. -/

theorem foldl_insert_congr :
    ∀ (l : List (List Str)) {t1 t2 : Tnode}, Equiv t1 t2 →
      Equiv (l.foldl insertParts t1) (l.foldl insertParts t2) := by
  intro l
  induction l with
  | nil =>
    intro t1 t2 h
    simpa using h
  | cons p rest ih =>
    intro t1 t2 h
    simpa using ih (insertParts_congr p h)

theorem WF_foldl (l : List (List Str)) : ∀ {t : Tnode}, WF t →
    WF (l.foldl insertParts t) := by
  induction l with
  | nil =>
    intro t h
    simpa using h
  | cons p rest ih =>
    intro t h
    simpa using ih (WF_insertParts p h)

theorem foldl_insert_perm {l1 l2 : List (List Str)} (hp : l1.Perm l2) :
    ∀ {t : Tnode}, WF t →
      Equiv (l1.foldl insertParts t) (l2.foldl insertParts t) := by
  induction hp with
  | nil =>
    intro t h
    exact Equiv.refl_of_wf (WF_foldl [] h)
  | cons x h ih =>
    intro t hw
    simp only [List.foldl_cons]
    exact ih (WF_insertParts x hw)
  | swap x y l =>
    intro t hw
    simp only [List.foldl_cons]
    exact foldl_insert_congr l (insertParts_swap y x hw)
  | trans h1 h2 ih1 ih2 =>
    intro t hw
    exact (ih1 hw).trans2 (ih2 hw)

theorem sortStrs_eq_of_perm {l1 l2 : List Str} (h : l1.Perm l2) :
    sortStrs l1 = sortStrs l2 :=
  List.eq_of_perm_of_sorted
    ((sortStrs_perm l1).trans (h.trans (sortStrs_perm l2).symm))
    (sortStrs_sorted l1) (sortStrs_sorted l2)

theorem filter_keys_perm {c1 c2 : List (Str × Tnode)} (p : Tnode → Bool)
    (hn1 : (keys c1).Nodup) (hn2 : (keys c2).Nodup)
    (hp : (keys c1).Perm (keys c2))
    (hpt : ∀ k v1 v2, (k, v1) ∈ c1 → (k, v2) ∈ c2 → p v1 = p v2) :
    ((c1.filter (fun kv => p kv.2)).map Prod.fst).Perm
      ((c2.filter (fun kv => p kv.2)).map Prod.fst) := by
  have nd1 : ((c1.filter (fun kv => p kv.2)).map Prod.fst).Nodup :=
    ((List.filter_sublist c1).map Prod.fst).nodup hn1
  have nd2 : ((c2.filter (fun kv => p kv.2)).map Prod.fst).Nodup :=
    ((List.filter_sublist c2).map Prod.fst).nodup hn2
  rw [List.perm_ext_iff_of_nodup nd1 nd2]
  intro k
  simp only [List.mem_map, List.mem_filter]
  constructor
  · rintro ⟨⟨a, b⟩, ⟨hm, hd⟩, rfl⟩
    obtain ⟨v2, hm2⟩ := mem_keys_iff.mp (hp.subset (mem_keys_iff.mpr ⟨b, hm⟩))
    exact ⟨(a, v2), ⟨hm2, by rw [← hpt a b v2 hm hm2]; exact hd⟩, rfl⟩
  · rintro ⟨⟨a, b⟩, ⟨hm, hd⟩, rfl⟩
    obtain ⟨v1, hm1⟩ :=
      mem_keys_iff.mp (hp.symm.subset (mem_keys_iff.mpr ⟨b, hm⟩))
    exact ⟨(a, v1), ⟨hm1, by rw [hpt a v1 b hm1 hm]; exact hd⟩, rfl⟩

theorem sortedKeys_congr {c1 c2 : List (Str × Tnode)}
    (hn1 : (keys c1).Nodup) (hn2 : (keys c2).Nodup)
    (hp : (keys c1).Perm (keys c2))
    (hpt : ∀ k v1 v2, (k, v1) ∈ c1 → (k, v2) ∈ c2 → Equiv v1 v2) :
    sortedKeys c1 true = sortedKeys c2 true := by
  have hd : ∀ k v1 v2, (k, v1) ∈ c1 → (k, v2) ∈ c2 → isDir v1 = isDir v2 :=
    fun k v1 v2 m1 m2 => isDir_eq_of_equiv (hpt k v1 v2 m1 m2)
  have h1 := sortStrs_eq_of_perm (filter_keys_perm (fun v => isDir v) hn1 hn2 hp hd)
  have h2 := sortStrs_eq_of_perm (filter_keys_perm (fun v => !isDir v) hn1 hn2 hp
    (fun k v1 v2 m1 m2 => by simp only [hd k v1 v2 m1 m2]))
  simp only [sortedKeys, Bool.not_true, Bool.false_eq_true, if_false]
  rw [h1, h2]

theorem renderKids_congr {c1 c2 : List (Str × Tnode)}
    (hn1 : (keys c1).Nodup) (hn2 : (keys c2).Nodup)
    (hp : (keys c1).Perm (keys c2))
    (hrender : ∀ k v1 v2, (k, v1) ∈ c1 → (k, v2) ∈ c2 →
      ∀ (pre : Str) (last : Bool),
        renderNode v1 pre last = renderNode v2 pre last) :
    ∀ (names : List Str) (pre : Str),
      renderKids c1 names pre = renderKids c2 names pre := by
  intro names
  induction names with
  | nil =>
    intro pre
    simp only [renderKids]
  | cons name rest ih =>
    intro pre
    simp only [renderKids]
    cases hf1 : findChild c1 name with
    | none =>
      have hf2 : findChild c2 name = none := by
        rw [findChild_none_iff] at hf1 ⊢
        exact fun h2 => hf1 (hp.symm.subset h2)
      rw [hf2]
      exact ih pre
    | some v1 =>
      have hm1 := findChild_mem hf1
      obtain ⟨v2, hm2⟩ :=
        mem_keys_iff.mp (hp.subset (mem_keys_iff.mpr ⟨v1, hm1⟩))
      rw [findChild_of_mem hn2 hm2]
      show renderNode v1 pre rest.isEmpty ++ renderKids c1 rest pre =
        renderNode v2 pre rest.isEmpty ++ renderKids c2 rest pre
      rw [hrender name v1 v2 hm1 hm2 pre rest.isEmpty, ih pre]

theorem renderNode_congr : ∀ {t1 t2 : Tnode}, Equiv t1 t2 →
    ∀ (pre : Str) (last : Bool),
      renderNode t1 pre last = renderNode t2 pre last := by
  intro t1 t2 h
  induction h with
  | @mk n f c1 c2 hn1 hn2 hp hpt ih =>
    intro pre last
    have hdir : isDir (Tnode.mk n c1 f) = isDir (Tnode.mk n c2 f) :=
      isDir_eq_of_equiv (Equiv.mk hn1 hn2 hp hpt)
    have hkeys : sortedKeys c1 true = sortedKeys c2 true :=
      sortedKeys_congr hn1 hn2 hp hpt
    have hkids := renderKids_congr hn1 hn2 hp ih
    rw [renderNode, renderNode]
    simp only [Tnode.children, Tnode.name]
    rw [hdir]
    by_cases hd2 : isDir (Tnode.mk n c2 f) = true
    · rw [if_pos hd2, if_pos hd2, hkeys, hkids]
    · rw [if_neg hd2, if_neg hd2]

theorem renderRoot_congr : ∀ {t1 t2 : Tnode}, Equiv t1 t2 →
    renderKids t1.children (sortedKeys t1.children true) [] =
      renderKids t2.children (sortedKeys t2.children true) [] := by
  intro t1 t2 h
  cases h with
  | @mk n f c1 c2 hn1 hn2 hp hpt =>
    have hkeys := sortedKeys_congr hn1 hn2 hp hpt
    have hkids := renderKids_congr hn1 hn2 hp
      (fun k v1 v2 m1 m2 => renderNode_congr (hpt k v1 v2 m1 m2))
    simp only [Tnode.children]
    rw [hkeys, hkids]

theorem foldl_insertPath_eq (l : List Str) :
    ∀ t : Tnode, l.foldl insertPath t = (l.map splitPath).foldl insertParts t := by
  induction l with
  | nil =>
    intro t
    rfl
  | cons p rest ih =>
    intro t
    simp only [List.foldl_cons, List.map_cons]
    exact ih (insertPath t p)

/-- C3: `renderTree` is a deterministic function of the multiset of its
input paths: rendering any permutation of a path list yields a string
identical to rendering the original list (the tree build commutes up to
children-map ordering, and rendering re-sorts every children map). -/
theorem renderTree_perm_invariant (l1 l2 : List Str) (h : l1.Perm l2) :
    renderTree l1 = renderTree l2 := by
  have hEq : Equiv (buildTree l1) (buildTree l2) := by
    rw [buildTree, buildTree, foldl_insertPath_eq, foldl_insertPath_eq]
    exact foldl_insert_perm (h.map splitPath) (WF_newNode [])
  simpa only [renderTree] using renderRoot_congr hEq


/-! Shadowing of descendants by a node that is both file and directory. -/

theorem upsert_ne_nil (c : List (Str × Tnode)) (k : Str) (v : Tnode) :
    upsert c k v ≠ [] := by
  cases c with
  | nil => simp [upsert]
  | cons hd tl =>
    obtain ⟨a, b⟩ := hd
    rw [upsert]
    split <;> simp

theorem splitOnCharAux_ne_nil (c : Char) :
    ∀ (s acc : Str), splitOnCharAux c s acc ≠ [] := by
  intro s
  induction s with
  | nil =>
    intro acc
    simp [splitOnCharAux]
  | cons x rest ih =>
    intro acc
    rw [splitOnCharAux]
    split
    · simp
    · exact ih _

theorem splitPath_ne_nil (p : Str) : splitPath p ≠ [] :=
  splitOnCharAux_ne_nil sep (clean p) []

theorem isFile_setFile (t : Tnode) : (setFile t).isFile = true := by
  cases t
  rfl

theorem children_setFile (t : Tnode) : (setFile t).children = t.children := by
  cases t
  rfl

theorem findNode_setFile_cons (ch : Tnode) (s : Str) (r : List Str) :
    findNode (setFile ch) (s :: r) = findNode ch (s :: r) := by
  cases ch with
  | mk n c f => rfl

theorem findNode_markIf {b : Bool} {ch : Tnode} {segs : List Str} {nd : Tnode}
    (h : findNode ch segs = some nd) :
    ∃ ndm, findNode (if b then setFile ch else ch) segs = some ndm ∧
      (nd.isFile = true → ndm.isFile = true) ∧
      (nd.children ≠ [] → ndm.children ≠ []) := by
  cases b
  · exact ⟨nd, by simpa using h, fun x => x, fun x => x⟩
  · cases segs with
    | nil =>
      rw [findNode] at h
      injection h with h
      refine ⟨setFile ch, rfl, ?_, ?_⟩
      · intro _
        exact isFile_setFile ch
      · intro hc
        rw [children_setFile, h]
        exact hc
    | cons s r =>
      refine ⟨nd, ?_, fun x => x, fun x => x⟩
      simpa [findNode_setFile_cons] using h

theorem findNode_preserved :
    ∀ (ps : List Str) {t : Tnode} {segs : List Str} {nd : Tnode},
      findNode t segs = some nd →
      ∃ nd2, findNode (insertParts t ps) segs = some nd2 ∧
        (nd.isFile = true → nd2.isFile = true) ∧
        (nd.children ≠ [] → nd2.children ≠ []) := by
  intro ps
  induction ps with
  | nil =>
    intro t segs nd h
    exact ⟨nd, by simpa only [insertParts] using h, fun x => x, fun x => x⟩
  | cons a ps2 ih =>
    intro t segs nd h
    cases t with
    | mk n c f =>
      rw [insertParts_cons_eq]
      cases segs with
      | nil =>
        rw [findNode] at h
        injection h with h
        subst h
        refine ⟨_, rfl, ?_, ?_⟩
        · intro hf
          simpa [Tnode.isFile] using hf
        · intro _
          simp only [Tnode.children]
          exact upsert_ne_nil _ _ _
      | cons s segs2 =>
        simp only [findNode, Tnode.children] at h
        cases hf0 : findChild c s with
        | none => simp [hf0] at h
        | some ch0 =>
          rw [hf0] at h
          simp only [] at h
          by_cases hsa : s = a
          · subst hsa
            rw [hf0]
            simp only [findNode, Tnode.children, findChild_upsert_self,
              Option.getD_some]
            obtain ⟨ndm, hm, him1, him2⟩ :=
              findNode_markIf (b := ps2.isEmpty) h
            obtain ⟨nd2, h2, hi1, hi2⟩ := ih hm
            exact ⟨nd2, h2, fun x => hi1 (him1 x), fun x => hi2 (him2 x)⟩
          · simp only [findNode, Tnode.children,
              findChild_upsert_other c a s _ hsa, hf0]
            exact ⟨nd, h, fun x => x, fun x => x⟩

theorem findNode_insert_self :
    ∀ (segs : List Str) (t : Tnode), segs ≠ [] →
      ∃ nd, findNode (insertParts t segs) segs = some nd ∧
        nd.isFile = true := by
  intro segs
  induction segs with
  | nil =>
    intro t h
    exact absurd rfl h
  | cons a segs2 ih =>
    intro t _
    cases t with
    | mk n c f =>
      rw [insertParts_cons_eq]
      cases segs2 with
      | nil =>
        simp only [List.isEmpty_nil, if_true, insertParts]
        simp only [findNode, Tnode.children, findChild_upsert_self]
        exact ⟨_, rfl, isFile_setFile _⟩
      | cons s2 r2 =>
        simp only [List.isEmpty_cons, Bool.false_eq_true, if_false]
        simp only [findNode, Tnode.children, findChild_upsert_self]
        exact ih _ (by simp)

theorem findNode_insert_extends :
    ∀ (segs : List Str) (t : Tnode) (s1 : Str) (rest1 : List Str),
      ∃ nd, findNode (insertParts t (segs ++ s1 :: rest1)) segs = some nd ∧
        nd.children ≠ [] := by
  intro segs
  induction segs with
  | nil =>
    intro t s1 rest1
    cases t with
    | mk n c f =>
      rw [List.nil_append, insertParts_cons_eq]
      refine ⟨_, rfl, ?_⟩
      simp only [Tnode.children]
      exact upsert_ne_nil _ _ _
  | cons a segs2 ih =>
    intro t s1 rest1
    cases t with
    | mk n c f =>
      rw [List.cons_append, insertParts_cons_eq]
      have hne : (segs2 ++ s1 :: rest1).isEmpty = false := by simp
      rw [hne]
      simp only [Bool.false_eq_true, if_false]
      simp only [findNode, Tnode.children, findChild_upsert_self]
      exact ih _ s1 rest1

theorem foldl_insert_preserve (P : Tnode → Prop)
    (hpres : ∀ (t : Tnode) (ps : List Str), P t → P (insertParts t ps)) :
    ∀ (l : List (List Str)) (t : Tnode), P t → P (l.foldl insertParts t) := by
  intro l
  induction l with
  | nil =>
    intro t h
    simpa using h
  | cons p rest ih =>
    intro t h
    simpa using ih _ (hpres t p h)

theorem foldl_insert_establish (P : Tnode → Prop) (ps0 : List Str)
    (hpres : ∀ (t : Tnode) (ps : List Str), P t → P (insertParts t ps))
    (hest : ∀ t : Tnode, P (insertParts t ps0)) :
    ∀ (l : List (List Str)) (t : Tnode), ps0 ∈ l →
      P (l.foldl insertParts t) := by
  intro l
  induction l with
  | nil =>
    intro t h
    cases h
  | cons p rest ih =>
    intro t h
    rcases List.mem_cons.mp h with rfl | h
    · simpa using foldl_insert_preserve P hpres rest _ (hest t)
    · simpa using ih _ h

/-- C10: when one input path is a proper directory-prefix of another
(their cleaned segment chains are `segs` and `segs ++ segs2`), the node
reached at `segs` in the built tree is marked as a file, classified as a
non-directory (`isDir` is false because `isFile` is set), and rendered
by `renderNode` as a single file-leaf line without a trailing slash —
its descendant nodes (which do exist: its children map is non-empty)
are silently omitted from the output. -/
theorem prefix_path_shadowed (l : List Str) (p q : Str)
    (segs segs2 : List Str) (hp : p ∈ l) (hq : q ∈ l)
    (hsp : splitPath p = segs) (hsq : splitPath q = segs ++ segs2)
    (hne : segs2 ≠ []) :
    ∃ nd, findNode (buildTree l) segs = some nd ∧
      nd.isFile = true ∧ nd.children ≠ [] ∧ isDir nd = false ∧
      ∀ (pre : Str) (last : Bool), renderNode nd pre last =
        pre ++ (if last then "└── ".data else "├── ".data) ++
          nd.name ++ ['\n'] := by
  have hsegsne : segs ≠ [] := hsp ▸ splitPath_ne_nil p
  have hP : ∃ nd, findNode (buildTree l) segs = some nd ∧
      nd.isFile = true := by
    rw [buildTree, foldl_insertPath_eq]
    refine foldl_insert_establish
      (fun t => ∃ nd, findNode t segs = some nd ∧ nd.isFile = true) segs
      ?_ ?_ (List.map splitPath l) (newNode [])
      (by rw [← hsp]; exact List.mem_map_of_mem splitPath hp)
    · rintro t ps ⟨nd, h, hf⟩
      obtain ⟨nd2, h2, impf, _⟩ := findNode_preserved ps h
      exact ⟨nd2, h2, impf hf⟩
    · intro t
      exact findNode_insert_self segs t hsegsne
  have hQ : ∃ nd, findNode (buildTree l) segs = some nd ∧
      nd.children ≠ [] := by
    rw [buildTree, foldl_insertPath_eq]
    obtain ⟨s1, rest1, hs⟩ : ∃ s1 rest1, segs2 = s1 :: rest1 := by
      cases segs2 with
      | nil => exact absurd rfl hne
      | cons s1 r1 => exact ⟨s1, r1, rfl⟩
    refine foldl_insert_establish
      (fun t => ∃ nd, findNode t segs = some nd ∧ nd.children ≠ [])
      (segs ++ segs2) ?_ ?_ (List.map splitPath l) (newNode [])
      (by rw [← hsq]; exact List.mem_map_of_mem splitPath hq)
    · rintro t ps ⟨nd, h, hc⟩
      obtain ⟨nd2, h2, _, impc⟩ := findNode_preserved ps h
      exact ⟨nd2, h2, impc hc⟩
    · intro t
      rw [hs]
      exact findNode_insert_extends segs t s1 rest1
  obtain ⟨nd, hfind, hfile⟩ := hP
  obtain ⟨nd2, hfind2, hchild⟩ := hQ
  rw [hfind] at hfind2
  injection hfind2 with e
  subst e
  have hdir : isDir nd = false := by
    rw [isDir, hfile]
    simp
  refine ⟨nd, hfind, hfile, hchild, hdir, ?_⟩
  intro pre last
  rw [renderNode]
  simp only [hdir, Bool.false_eq_true, if_false]


/-! Witnesses: the claim theorems applied at concrete inputs. -/

/-- Witness for C1: a concrete collection run whose output is sorted and
duplicate-free. -/
theorem collectFiles_sorted_nodup_witness :
    List.Sorted (· ≤ ·) ["src/a.go".data, "src/b/c.go".data] ∧
    List.Nodup ["src/a.go".data, "src/b/c.go".data] :=
  collectFiles_sorted_nodup envW ".".data ["src".data, "missing".data]
    "*.go".data ["src/a.go".data, "src/b/c.go".data] rfl

/-- Witness for C3: a concrete permutation renders identically. -/
theorem renderTree_perm_invariant_witness :
    renderTree ["b".data, "a".data] = renderTree ["a".data, "b".data] :=
  renderTree_perm_invariant ["b".data, "a".data] ["a".data, "b".data]
    (List.Perm.swap "a".data "b".data [])

/-- Witness for C4: a concrete pattern split and a concrete walk-step
inclusion characterisation. -/
theorem splitPatterns_and_inclusion_witness :
    (splitPatterns " *.go, ,*.md".data =
      ((splitOnChar ',' " *.go, ,*.md".data).map trim).filter
        (fun s => ¬s.isEmpty)) ∧
    ("src/a.go".data ∈ (["src/a.go".data, "src/b/c.go".data] : List Str) ↔
      "src/a.go".data ∈ ([] : List Str) ∨
      ∃ e ∈ entriesW, e.isDir = false ∧
        ((["*.go".data] : List Str).isEmpty ||
          matchAny ["*.go".data] e.name) = true ∧
        ∃ r, rel "/w".data e.path = .ok r ∧
          "src/a.go".data = toSlash r) :=
  ⟨splitPatterns_and_inclusion.1 " *.go, ,*.md".data,
   splitPatterns_and_inclusion.2 "/w".data ["*.go".data] entriesW []
     ["src/a.go".data, "src/b/c.go".data] rfl "src/a.go".data⟩

/-- Witness for C5: a concrete expansion (one literal entry, one glob
entry with zero matches) equals its specification. -/
theorem expandSourceStarts_eq_spec_witness :
    expandSourceStarts envW "/w".data ["src".data, "li*".data] =
      .ok ((["src".data, "li*".data] : List Str).flatMap
        (expandOneSpec envW "/w".data)) :=
  expandSourceStarts_eq_spec envW "/w".data ["src".data, "li*".data]
    (fun d hd hg u h => by simp [envW] at h)

/-- Witness for C6: the three stat outcomes at concrete start points. -/
theorem notFound_skipped_other_stat_errors_fail_witness :
    (processStarts envW2 "/w".data [] ["/w/missing".data] [] =
      processStarts envW2 "/w".data [] [] []) ∧
    (processStarts envW2 "/w".data [] ["/w/bad".data] [] =
      .error (.statErr "/w/bad".data)) ∧
    (processStarts envW2 "/w".data [] ["/w/dir".data] [] =
      .error (.walkFail "/w/dir".data)) :=
  ⟨notFound_skipped_other_stat_errors_fail.1 envW2 "/w".data [] []
     "/w/missing".data [] rfl,
   notFound_skipped_other_stat_errors_fail.2.1 envW2 "/w".data [] []
     "/w/bad".data [] rfl,
   notFound_skipped_other_stat_errors_fail.2.2 envW2 "/w".data [] []
     "/w/dir".data [] () rfl rfl⟩

/-- Witness for C7: a document with source type `"blob"` fails with the
unknown-source-type error and writes nothing. -/
theorem unknown_source_type_fails_witness :
    generate envW ⟨"".data, [⟨"d".data, "out.md".data,
      [⟨"blob".data, [], [], "".data⟩]⟩]⟩ ".".data =
      ([], some (.unknownSourceType "blob".data)) :=
  unknown_source_type_fails envW ".".data "".data "d".data "out.md".data
    "blob".data [] [] "".data [] [] rfl (by decide) (by decide)

/-- Witness for C9: a concrete run where the second document fails keeps
the first document's write and reports the error. -/
theorem generate_sequential_abort_witness :
    generate envW ⟨"".data, [docA, docBad, docA]⟩ ".".data =
      ([("a.md".data, ([] : Str))], some (.unknownSourceType "blob".data)) :=
  generate_sequential_abort.2 envW ".".data "".data [docA] docBad [docA]
    (.unknownSourceType "blob".data) [("a.md".data, ([] : Str))] rfl rfl

/-- Witness for C10: in the tree built from `a` and `a/b`, the node `a`
is a shadowing file leaf. -/
theorem prefix_path_shadowed_witness :
    ∃ nd, findNode (buildTree ["a".data, "a/b".data]) ["a".data] =
        some nd ∧
      nd.isFile = true ∧ nd.children ≠ [] ∧ isDir nd = false ∧
      ∀ (pre : Str) (last : Bool), renderNode nd pre last =
        pre ++ (if last then "└── ".data else "├── ".data) ++
          nd.name ++ ['\n'] :=
  prefix_path_shadowed ["a".data, "a/b".data] "a".data "a/b".data
    ["a".data] ["b".data] (by decide) (by decide) rfl rfl (by decide)

end GPCM
